import Mathlib

/-!
# Verification of the STINGER utility kernels

A shallow embedding of `src/lib/stinger_utils/src/stinger_utils.c` (the sort
kernels, CSR conversion routines, comparators, byte-swapping and snapshot
loading) together with proofs and refutations of the specified properties.

Machine integers (`int64_t`, `int`, `uint64_t`) are modelled as `Int` / `Nat`;
wherever C performs a narrowing conversion or unsigned wrap-around we insert an
explicit reduction modulo `2^64` / `2^32` (`wrap64`, `wrap32`).  Arrays are
modelled as `List`s, or as functions `Nat → _` with explicit index arithmetic
where the C code scatters through raw pointers.  `qsort` calls are modelled by
`List.insertionSort` driven by the very comparator the C code passes, i.e. an
arbitrary comparison sort that trusts the comparator.
-/

/-- Reduce an integer to the two's-complement value of its low 64 bits,
modelling a C cast of an arbitrary integer to `int64_t`. -/
def wrap64 (x : Int) : Int := (x + 2^63) % 2^64 - 2^63

/-- Reduce an integer to the two's-complement value of its low 32 bits,
modelling the C conversion from `int64_t` to `int`. -/
def wrap32 (x : Int) : Int := (x + 2^31) % 2^32 - 2^31

theorem wrap64_eq_self {x : Int} (h1 : -2^63 ≤ x) (h2 : x < 2^63) : wrap64 x = x := by
  unfold wrap64
  omega

theorem wrap32_eq_self {x : Int} (h1 : -2^31 ≤ x) (h2 : x < 2^31) : wrap32 x = x := by
  unfold wrap32
  omega

/-! ## The comparators (stinger_utils.c lines 396-403, 1101-1107)

All three comparators compute a 64-bit difference and return it through the C
`int` return type, i.e. truncated to 32 bits.  `i64cmp_adj_sort` compares the
`vtx` fields of two `struct adj_sort_t`; `csr_cmp` compares the two `int64_t`
values reached through double pointers (the dereferencing happens at the call
site in our model). -/

/-- `struct adj_sort_t` from stinger_utils.c lines 392-395. -/
structure adj_sort_t where
  vtx : Int
  wgt : Int
deriving DecidableEq

/-- `i64_cmp` (lines 1101-1107): `return va - vb;` where the difference is
computed in `int64_t` and then narrowed to the `int` return type. -/
def i64_cmp (va vb : Int) : Int := wrap32 (wrap64 (va - vb))

/-- `csr_cmp` (lines 401-403): identical arithmetic on the two pointed-to
values. -/
def csr_cmp (a b : Int) : Int := wrap32 (wrap64 (a - b))

/-- `i64cmp_adj_sort` (lines 396-398): the same truncated difference on the
`vtx` fields. -/
def i64cmp_adj_sort (ap bp : adj_sort_t) : Int := wrap32 (wrap64 (ap.vtx - bp.vtx))

/-- C9 (counterexample): the sign of the comparators does NOT always agree with
the true 64-bit ordering.  For `a = 2^32` and `b = 0` the difference `2^32`
truncates to `0` in the `int` return value, so `i64_cmp` (and the identically
shaped `csr_cmp`, `i64cmp_adj_sort`) reports equality for two values with
`a > b`. -/
theorem cmp_sign_counterexample :
    i64_cmp 4294967296 0 = 0 ∧ csr_cmp 4294967296 0 = 0 ∧
    i64cmp_adj_sort ⟨4294967296, 0⟩ ⟨0, 0⟩ = 0 ∧ (0 : Int) < 4294967296 ∧
    ¬ (0 < i64_cmp 4294967296 0 ↔ (0 : Int) < 4294967296) := by
  refine ⟨by decide, by decide, by decide, by decide, ?_⟩
  intro h
  have := h.mpr (by decide)
  revert this
  decide

/-- C9 (amended): whenever the true difference `a - b` fits in the 32-bit `int`
return type, the sign of `i64_cmp`, `csr_cmp` and `i64cmp_adj_sort` agrees with
the 64-bit ordering of the compared values; the agreement can fail (only) when
the difference overflows `int`, as the counterexample shows. -/
theorem cmp_sign_agrees (a b : Int) (h1 : -2^31 ≤ a - b) (h2 : a - b < 2^31) :
    (i64_cmp a b < 0 ↔ a < b) ∧ (0 < i64_cmp a b ↔ b < a) ∧ (i64_cmp a b = 0 ↔ a = b) ∧
    (csr_cmp a b < 0 ↔ a < b) ∧ (0 < csr_cmp a b ↔ b < a) ∧ (csr_cmp a b = 0 ↔ a = b) ∧
    ∀ w w' : Int, (i64cmp_adj_sort ⟨a, w⟩ ⟨b, w'⟩ < 0 ↔ a < b) ∧
      (0 < i64cmp_adj_sort ⟨a, w⟩ ⟨b, w'⟩ ↔ b < a) ∧
      (i64cmp_adj_sort ⟨a, w⟩ ⟨b, w'⟩ = 0 ↔ a = b) := by
  have e64 : wrap64 (a - b) = a - b := wrap64_eq_self (by omega) (by omega)
  have e32 : wrap32 (a - b) = a - b := wrap32_eq_self h1 h2
  have ei : i64_cmp a b = a - b := by rw [i64_cmp, e64, e32]
  have ec : csr_cmp a b = a - b := by rw [csr_cmp, e64, e32]
  refine ⟨?_, ?_, ?_, ?_, ?_, ?_, ?_⟩ <;>
    first
      | (rw [ei]; omega)
      | (rw [ec]; omega)
      | (intro w w'
         have ea : i64cmp_adj_sort ⟨a, w⟩ ⟨b, w'⟩ = a - b := by
           rw [i64cmp_adj_sort, e64, e32]
         exact ⟨by rw [ea]; omega, by rw [ea]; omega, by rw [ea]; omega⟩)

/-- Witness for `cmp_sign_agrees` at `a = 5`, `b = 3`. -/
theorem cmp_sign_agrees_witness :
    (-2^31 ≤ (5 : Int) - 3) ∧ ((5 : Int) - 3 < 2^31) ∧
    ((i64_cmp 5 3 < 0 ↔ (5 : Int) < 3) ∧ (0 < i64_cmp 5 3 ↔ (3 : Int) < 5) ∧
      (i64_cmp 5 3 = 0 ↔ (5 : Int) = 3) ∧
      (csr_cmp 5 3 < 0 ↔ (5 : Int) < 3) ∧ (0 < csr_cmp 5 3 ↔ (3 : Int) < 5) ∧
      (csr_cmp 5 3 = 0 ↔ (5 : Int) = 3) ∧
      ∀ w w' : Int, (i64cmp_adj_sort ⟨5, w⟩ ⟨3, w'⟩ < 0 ↔ (5 : Int) < 3) ∧
        (0 < i64cmp_adj_sort ⟨5, w⟩ ⟨3, w'⟩ ↔ (3 : Int) < 5) ∧
        (i64cmp_adj_sort ⟨5, w⟩ ⟨3, w'⟩ = 0 ↔ (5 : Int) = 3)) :=
  ⟨by decide, by decide, cmp_sign_agrees 5 3 (by decide) (by decide)⟩

/-! ## Byte swapping: `bs64` / `bs64_n` (stinger_utils.c lines 136-154)

`bs64` casts its `int64_t` argument to `uint64_t`, swaps 32-bit halves, then
16-bit quarters within them, then bytes within those, and returns the result
as `int64_t`.  The `uint64_t` value is modelled as a natural number and every
C operation carries its wrap-around modulo `2^64`. -/

/-- The `uint64_t` body of `bs64`: the initial `(uint64_t) xin` cast and the
three shift/mask/or steps of lines 139-145. -/
def bs64_steps (xin : Nat) : Nat :=
  let x := xin % 2^64
  let x1 := ((x >>> 32) ||| (x <<< 32)) % 2^64
  let x2 := (((x1 &&& 0xFFFF0000FFFF0000) >>> 16) ||| ((x1 &&& 0x0000FFFF0000FFFF) <<< 16)) % 2^64
  ((((x2 &&& 0xFF00FF00FF00FF00) >>> 8) ||| ((x2 &&& 0x00FF00FF00FF00FF) <<< 8)) % 2^64)

/-- `bs64` (lines 136-146): byte-swap of an `int64_t`, via the unsigned body
and the final implicit conversion back to `int64_t`. -/
def bs64 (xin : Int) : Int := wrap64 ((bs64_steps ((xin % 2^64).toNat) : Nat) : Int)

/-- `bs64_n` (lines 148-154): apply `bs64` to every element of an array. -/
def bs64_n (d : List Int) : List Int := d.map bs64

/-- Byte `j` (little-endian) of the 64-bit pattern `x`; used to state the
byte-reversal property of `bs64`. -/
def byteAt (x : Nat) (j : Nat) : Nat := x / 2^(8*j) % 2^8

theorem bs64_steps_lt (x : Nat) : bs64_steps x < 2^64 := by
  unfold bs64_steps
  exact Nat.mod_lt _ (by norm_num)

set_option maxHeartbeats 3000000 in
theorem bs64_steps_testBit (x : Nat) (i : Nat) (h : i < 64) :
    (bs64_steps x).testBit i = x.testBit (8 * (7 - i / 8) + i % 8) := by
  unfold bs64_steps
  interval_cases i <;>
    · simp only [Nat.testBit_mod_two_pow, Nat.testBit_lor, Nat.testBit_land,
        Nat.testBit_shiftLeft, Nat.testBit_shiftRight]
      norm_num [Nat.testBit_to_div_mod]

theorem bs64_steps_involutive (x : Nat) (hx : x < 2^64) :
    bs64_steps (bs64_steps x) = x := by
  apply Nat.eq_of_testBit_eq
  intro i
  rcases lt_or_ge i 64 with h | h
  · rw [bs64_steps_testBit _ i h,
      bs64_steps_testBit x _ (by omega),
      show 8 * (7 - (8 * (7 - i / 8) + i % 8) / 8) + (8 * (7 - i / 8) + i % 8) % 8 = i by omega]
  · rw [Nat.testBit_eq_false_of_lt
        (lt_of_lt_of_le (bs64_steps_lt _) (Nat.pow_le_pow_right (by norm_num) h)),
      Nat.testBit_eq_false_of_lt (lt_of_lt_of_le hx (Nat.pow_le_pow_right (by norm_num) h))]

theorem byteAt_testBit (y j k : Nat) :
    (byteAt y j).testBit k = (decide (k < 8) && y.testBit (8 * j + k)) := by
  unfold byteAt
  rw [← Nat.shiftRight_eq_div_pow, Nat.testBit_mod_two_pow, Nat.testBit_shiftRight]

theorem bs64_steps_byteAt (x : Nat) (j : Nat) (hj : j < 8) :
    byteAt (bs64_steps x) j = byteAt x (7 - j) := by
  apply Nat.eq_of_testBit_eq
  intro k
  rw [byteAt_testBit, byteAt_testBit]
  rcases lt_or_ge k 8 with hk | hk
  · rw [bs64_steps_testBit _ _ (by omega),
      show 8 * (7 - (8 * j + k) / 8) + (8 * j + k) % 8 = 8 * (7 - j) + k by omega]
  · simp [Nat.not_lt.mpr hk]

theorem wrap64_emod (y : Int) : wrap64 y % 2^64 = y % 2^64 := by
  unfold wrap64
  omega

theorem intOfNat_emod_toNat (s : Nat) (h : s < 2^64) : (((s : Int)) % 2^64).toNat = s := by
  omega

theorem bs64_emod_toNat (x : Int) :
    ((bs64 x) % 2^64).toNat = bs64_steps ((x % 2^64).toNat) := by
  unfold bs64
  rw [wrap64_emod]
  exact intOfNat_emod_toNat _ (bs64_steps_lt _)

/-- C10: `bs64` reverses the eight bytes of the 64-bit pattern of its
argument and is an involution on `int64_t` values; consequently `bs64_n`
applied twice restores an array of `int64_t` values, so byte-swapped
snapshot data is decoded losslessly. -/
theorem bs64_byte_reversal_involutive :
    (∀ x : Int, -2^63 ≤ x → x < 2^63 →
      (∀ j, j < 8 → byteAt ((bs64 x % 2^64).toNat) j = byteAt ((x % 2^64).toNat) (7 - j)) ∧
      bs64 (bs64 x) = x) ∧
    ∀ l : List Int, (∀ y ∈ l, -2^63 ≤ y ∧ y < 2^63) → bs64_n (bs64_n l) = l := by
  have main : ∀ x : Int, -2^63 ≤ x → x < 2^63 → bs64 (bs64 x) = x := by
    intro x h1 h2
    have hx : ((x % 2^64).toNat) < 2^64 := by omega
    unfold bs64
    rw [wrap64_emod, intOfNat_emod_toNat _ (bs64_steps_lt _), bs64_steps_involutive _ hx]
    unfold wrap64
    omega
  constructor
  · intro x h1 h2
    refine ⟨fun j hj => ?_, main x h1 h2⟩
    rw [bs64_emod_toNat]
    exact bs64_steps_byteAt _ j hj
  · intro l hl
    induction l with
    | nil => rfl
    | cons y t ih =>
        have hy := hl y (by simp)
        have ht : ∀ z ∈ t, -2^63 ≤ z ∧ z < 2^63 := fun z hz => hl z (by simp [hz])
        simpa [bs64_n] using And.intro (main y hy.1 hy.2) (by simpa [bs64_n] using ih ht)

/-- Witness for `bs64_byte_reversal_involutive` at `x = 0x0123456789ABCDEF`
and the array `[1, -2]`. -/
theorem bs64_byte_reversal_involutive_witness :
    ((-2^63 ≤ (81985529216486895 : Int)) ∧ ((81985529216486895 : Int) < 2^63)) ∧
    ((∀ j, j < 8 →
        byteAt ((bs64 81985529216486895 % 2^64).toNat) j =
          byteAt (((81985529216486895 : Int) % 2^64).toNat) (7 - j)) ∧
      bs64 (bs64 81985529216486895) = 81985529216486895) ∧
    bs64_n (bs64_n [1, -2]) = [1, -2] :=
  ⟨⟨by decide, by decide⟩,
    bs64_byte_reversal_involutive.1 81985529216486895 (by decide) (by decide),
    bs64_byte_reversal_involutive.2 [1, -2] (by decide)⟩

/-! ## Inclusive prefix sum (stinger_utils.c lines 1189-1250)

The non-OpenMP build of `prefix_sum` is the serial loop
`for (k = 1; k < n; ++k) ary[k] += ary[k-1]; return ary[n-1];`.
(The OpenMP build computes the same array slice-by-slice with a two-phase
barrier; both produce the inclusive prefix sum in place.)  We model the array
as a list, the loop as a recursion carrying the freshly updated previous
element, and return both the updated array and the returned total. -/

/-- The body of the serial `prefix_sum` loop: each element is replaced by
itself plus the updated previous element. -/
def prefix_sum_loop (prev : Int) : List Int → List Int
  | [] => []
  | a :: t => (prev + a) :: prefix_sum_loop (prev + a) t

/-- `prefix_sum` (lines 1241-1249): the updated array together with the
returned value `ary[n-1]`.  The C function is only defined for `n ≥ 1`
(it reads `ary[n-1]`). -/
def prefix_sum (ary : List Int) : List Int × Int :=
  match ary with
  | [] => ([], 0)
  | a :: t =>
      let out := a :: prefix_sum_loop a t
      (out, out.getLastD 0)

theorem prefix_sum_loop_length (prev : Int) (t : List Int) :
    (prefix_sum_loop prev t).length = t.length := by
  induction t generalizing prev with
  | nil => rfl
  | cons a t ih => simp [prefix_sum_loop, ih]

theorem prefix_sum_loop_getD (t : List Int) (prev : Int) (k : Nat) (hk : k < t.length) :
    (prefix_sum_loop prev t).getD k 0 = prev + (t.take (k+1)).sum := by
  induction t generalizing prev k with
  | nil => simp at hk
  | cons a t ih =>
      cases k with
      | zero => simp [prefix_sum_loop]
      | succ k =>
          simp only [prefix_sum_loop, List.getD_cons_succ, List.take_succ_cons, List.sum_cons]
          rw [ih (prev + a) k (by simpa using hk)]
          ring

theorem prefix_sum_loop_getLastD (t : List Int) (prev : Int) (d : Int) :
    (prev :: prefix_sum_loop prev t).getLastD d = prev + t.sum := by
  induction t generalizing prev d with
  | nil => simp [prefix_sum_loop]
  | cons a t ih =>
      simp only [prefix_sum_loop, List.sum_cons]
      rw [List.getLastD_cons, ih (prev + a) prev]
      ring

/-- C3: for every non-empty array, `prefix_sum` replaces element `k` by the
sum of input elements `0..k` (inclusive prefix sum) and returns the final
element, which is the grand total. -/
theorem prefix_sum_spec (l : List Int) (h : l ≠ []) :
    (prefix_sum l).1.length = l.length ∧
    (∀ k, k < l.length → (prefix_sum l).1.getD k 0 = (l.take (k+1)).sum) ∧
    (prefix_sum l).2 = l.sum := by
  match l with
  | [] => exact absurd rfl h
  | a :: t =>
      refine ⟨by simp [prefix_sum, prefix_sum_loop_length], fun k hk => ?_, ?_⟩
      · cases k with
        | zero => simp [prefix_sum]
        | succ k =>
            simp only [prefix_sum, List.getD_cons_succ, List.take_succ_cons, List.sum_cons]
            exact prefix_sum_loop_getD t a k (by simpa using hk)
      · simpa [prefix_sum] using prefix_sum_loop_getLastD t a 0

/-- Witness for `prefix_sum_spec` on the spec's example `[4,1,2,5]`:
output `[4,5,7,12]`, returned total `12`. -/
theorem prefix_sum_spec_witness :
    ([4, 1, 2, 5] : List Int) ≠ [] ∧
    ((prefix_sum [4, 1, 2, 5]).1.length = ([4, 1, 2, 5] : List Int).length ∧
      (∀ k, k < ([4, 1, 2, 5] : List Int).length →
        (prefix_sum [4, 1, 2, 5]).1.getD k 0 = (([4, 1, 2, 5] : List Int).take (k+1)).sum) ∧
      (prefix_sum [4, 1, 2, 5]).2 = ([4, 1, 2, 5] : List Int).sum) ∧
    prefix_sum [4, 1, 2, 5] = ([4, 5, 7, 12], 12) :=
  ⟨by decide, prefix_sum_spec [4, 1, 2, 5] (by decide), by decide⟩

/-! ## Snapshot loading: `snarf_graph` (stinger_utils.c lines 189-267)

The function stats the file, aborts if the byte size is not a multiple of
`sizeof(int64_t)`, reads the whole file, byte-swaps it if the leading marker
word is not `0x1234ABCD`, and then returns `nv = mem[1]`, `ne = mem[2]` and
the `off`/`ind`/`weight` slices.  The word-count consistency check against
`3 + (nv+1) + 2*ne` (lines 250-261) is compiled out with `#if 0`, so a
mismatched file is accepted.  I/O failures (`stat`/`open`/`read`) are outside
the model; `sz` is the stat-reported byte size and `words` the file contents
as 64-bit words. -/

/-- The outputs of a successful `snarf_graph`. -/
structure SnarfResult where
  nv : Int
  ne : Int
  off : List Int
  ind : List Int
  weight : List Int
deriving DecidableEq

/-- `snarf_graph` (lines 189-267), with `abort()` modelled as `.error`. -/
def snarf_graph (sz : Nat) (words : List Int) : Except String SnarfResult :=
  if sz % 8 ≠ 0 then
    .error "graph file size is not a multiple of sizeof (int64_t)"
  else
    let mem := if words.getD 0 0 ≠ 0x1234ABCD then bs64_n words else words
    let nv := mem.getD 1 0
    let ne := mem.getD 2 0
    .ok ⟨nv, ne,
      (mem.drop 3).take (nv.toNat + 1),
      (mem.drop (3 + nv.toNat + 1)).take ne.toNat,
      (mem.drop (3 + nv.toNat + 1 + ne.toNat)).take ne.toNat⟩

/-- C6 (counterexample): a 6-word snapshot whose header claims `nv = 1`,
`ne = 1` would need `3 + (nv+1) + 2*ne = 7` words, yet `snarf_graph`
accepts it: the size consistency check is disabled (`#if 0`, lines 250-261),
so the mismatch is NOT fatal. -/
theorem snarf_graph_size_counterexample :
    (snarf_graph 48 [0x1234ABCD, 1, 1, 0, 0, 7]).isOk = true ∧
    ([0x1234ABCD, 1, 1, 0, 0, 7] : List Int).length = 6 ∧
    (6 : Int) ≠ 3 + (1 + 1) + 2 * 1 := by
  refine ⟨by rfl, by rfl, by decide⟩

/-- C6 (amended): the only size condition `snarf_graph` treats as fatal is the
byte size not being a multiple of `sizeof(int64_t)`; any file whose size is a
multiple of 8 is accepted regardless of whether its word count matches
`3 + (nv+1) + 2*ne` (that check is compiled out with `#if 0`). -/
theorem snarf_graph_accepts_multiple_of_8 (sz : Nat) (words : List Int)
    (h : sz % 8 = 0) : (snarf_graph sz words).isOk = true := by
  unfold snarf_graph
  rw [if_neg (by omega)]
  rfl

/-- Witness for `snarf_graph_accepts_multiple_of_8` on the 6-word file. -/
theorem snarf_graph_accepts_multiple_of_8_witness :
    48 % 8 = 0 ∧ (snarf_graph 48 [0x1234ABCD, 1, 1, 0, 0, 7]).isOk = true :=
  ⟨by decide, snarf_graph_accepts_multiple_of_8 48 [0x1234ABCD, 1, 1, 0, 0, 7] (by decide)⟩
/-! ## Counting sort (stinger_utils.c lines 566-595)

`counting_sort(array, num, size)` reads `num` keys at stride `size` (positions
`0, size, 2*size, ...`), computes their min/max with an `if`/`else if` scan
starting from `array[0]`, histograms `array[i] - min`, and then emits each
value of `[min, max]` `count` times -- but the emitting loop writes through a
plain `z++` cursor, i.e. contiguously into positions `0..num-1`, ignoring the
stride.  The C `int range = max - min + 1` narrowing is modelled as exact
(inputs whose range overflows `int` crash the allocation in C and are outside
the model). -/

/-- The min/max scan of lines 569-578 over the keys after the first,
including the `else if` (a value below `min` cannot update `max`). -/
def counting_sort_minmax : List Int → Int → Int → Int × Int
  | [], mn, mx => (mn, mx)
  | a :: t, mn, mx =>
      if a < mn then counting_sort_minmax t a mx
      else if a > mx then counting_sort_minmax t mn a
      else counting_sort_minmax t mn mx

/-- The histogram loop of lines 586-587: `count[array[i] - min]++`. -/
def counting_sort_hist : List Int → Int → (Nat → Nat) → (Nat → Nat)
  | [], _, c => c
  | a :: t, minv, c =>
      counting_sort_hist t minv (Function.update c ((a - minv).toNat) (c ((a - minv).toNat) + 1))

/-- The emission double loop of lines 589-592: each value of `[min, max]`
repeated its histogram count, written contiguously through `z++`. -/
def counting_sort_emit (minv : Int) (range : Nat) (cnt : Nat → Nat) : List Int :=
  (List.range range).flatMap (fun i => List.replicate (cnt i) (minv + i))

/-- `counting_sort` (lines 566-595).  Positions `num` onward are untouched by
the emission loop. -/
def counting_sort (array : List Int) (num size : Nat) : List Int :=
  let keys := (List.range num).map (fun i => array.getD (i * size) 0)
  let k0 := array.getD 0 0
  let mm := counting_sort_minmax (keys.drop 1) k0 k0
  let cnt := counting_sort_hist keys mm.1 (fun _ => 0)
  counting_sort_emit mm.1 (mm.2 - mm.1 + 1).toNat cnt ++ array.drop num

theorem counting_sort_minmax_bounds (t : List Int) (mn mx : Int) (h : mn ≤ mx) :
    (counting_sort_minmax t mn mx).1 ≤ mn ∧ mx ≤ (counting_sort_minmax t mn mx).2 ∧
    ∀ a ∈ t, (counting_sort_minmax t mn mx).1 ≤ a ∧ a ≤ (counting_sort_minmax t mn mx).2 := by
  induction t generalizing mn mx with
  | nil => exact ⟨le_refl _, le_refl _, by simp⟩
  | cons a t ih =>
      simp only [counting_sort_minmax]
      split_ifs with h1 h2
      · obtain ⟨e1, e2, e3⟩ := ih a mx (by omega)
        exact ⟨by omega, e2, by
          intro b hb
          rcases List.mem_cons.mp hb with rfl | hb
          · exact ⟨e1, by omega⟩
          · exact e3 b hb⟩
      · obtain ⟨e1, e2, e3⟩ := ih mn a (by omega)
        exact ⟨e1, by omega, by
          intro b hb
          rcases List.mem_cons.mp hb with rfl | hb
          · exact ⟨by omega, e2⟩
          · exact e3 b hb⟩
      · obtain ⟨e1, e2, e3⟩ := ih mn mx h
        exact ⟨e1, e2, by
          intro b hb
          rcases List.mem_cons.mp hb with rfl | hb
          · exact ⟨by omega, by omega⟩
          · exact e3 b hb⟩

theorem counting_sort_hist_apply (keys : List Int) (minv : Int) (c : Nat → Nat) (j : Nat) :
    counting_sort_hist keys minv c j = c j + keys.countP (fun a => decide ((a - minv).toNat = j)) := by
  induction keys generalizing c with
  | nil => simp [counting_sort_hist]
  | cons a t ih =>
      simp only [counting_sort_hist, List.countP_cons]
      rw [ih]
      by_cases hj : (a - minv).toNat = j
      · subst hj
        simp only [Function.update, eq_rec_constant, dite_eq_ite, if_pos rfl, decide_eq_true_eq,
          if_true]
        omega
      · simp [Function.update, hj, Ne.symm hj]

theorem counting_sort_emit_count (minv : Int) (cnt : Nat → Nat) (n : Nat) (v : Int) :
    (counting_sort_emit minv n cnt).count v =
      if minv ≤ v ∧ (v - minv).toNat < n then cnt ((v - minv).toNat) else 0 := by
  induction n with
  | zero => simp [counting_sort_emit]
  | succ n ih =>
      unfold counting_sort_emit at ih ⊢
      rw [List.range_succ, List.flatMap_append, List.count_append, ih]
      simp only [List.flatMap_cons, List.flatMap_nil, List.append_nil, List.count_replicate,
        beq_iff_eq]
      by_cases hv : v = minv + (n : Int)
      · subst hv
        rw [show ((minv + (n : Int)) - minv).toNat = n from by omega]
        split_ifs <;> omega
      · rw [if_neg (show ¬(minv + (n : Int) = v) from fun h => hv h.symm)]
        split_ifs <;> omega

theorem counting_sort_emit_mem (minv : Int) (cnt : Nat → Nat) (n : Nat) :
    ∀ a ∈ counting_sort_emit minv n cnt, ∃ i, i < n ∧ a = minv + i := by
  intro a ha
  obtain ⟨i, hi, hmem⟩ := List.mem_flatMap.mp ha
  exact ⟨i, List.mem_range.mp hi, (List.eq_of_mem_replicate hmem)⟩

theorem counting_sort_emit_sorted (minv : Int) (cnt : Nat → Nat) (n : Nat) :
    (counting_sort_emit minv n cnt).Pairwise (· ≤ ·) := by
  induction n with
  | zero => simp [counting_sort_emit]
  | succ n ih =>
      unfold counting_sort_emit at ih ⊢
      rw [List.range_succ, List.flatMap_append]
      refine List.pairwise_append.mpr ⟨ih, ?_, ?_⟩
      · simp only [List.flatMap_cons, List.flatMap_nil, List.append_nil]
        exact List.pairwise_replicate.mpr (Or.inr (le_refl _))
      · intro a ha b hb
        obtain ⟨i, hi, rfl⟩ := counting_sort_emit_mem minv cnt n a ha
        simp only [List.flatMap_cons, List.flatMap_nil, List.append_nil] at hb
        rw [List.eq_of_mem_replicate hb]
        omega

/-- C7 (amended): for a non-empty input of `num` keys at stride `size`, the
emission loop writes the keys in ascending order, each repeated its histogram
count -- but contiguously into positions `0..num-1`, not at the stride; the
rest of the array is untouched.  The first `num` entries are therefore an
ascending permutation of the strided input keys, and the claim as stated
holds exactly when `size = 1`. -/
theorem counting_sort_correct (array : List Int) (num size : Nat)
    (hnum : 0 < num) (hsize : 1 ≤ size) (hlen : num * size ≤ array.length) :
    (counting_sort array num size).length = array.length ∧
    ((counting_sort array num size).take num).Perm
      ((List.range num).map (fun i => array.getD (i * size) 0)) ∧
    ((counting_sort array num size).take num).Pairwise (· ≤ ·) ∧
    (counting_sort array num size).drop num = array.drop num := by
  set keys := (List.range num).map (fun i => array.getD (i * size) 0) with hkeysdef
  set k0 := array.getD 0 0 with hk0
  set mm := counting_sort_minmax (keys.drop 1) k0 k0 with hmm
  set cnt := counting_sort_hist keys mm.1 (fun _ => 0) with hcnt
  have hout : counting_sort array num size =
      counting_sort_emit mm.1 (mm.2 - mm.1 + 1).toNat cnt ++ array.drop num := rfl
  clear_value keys k0 mm cnt
  have hkl : keys.length = num := by simp [hkeysdef]
  have hne : keys ≠ [] := by
    intro h
    rw [h] at hkl
    simp at hkl
    omega
  obtain ⟨hd, tl, e⟩ := List.exists_cons_of_ne_nil hne
  have hhd : hd = k0 := by
    have h0 : keys.getD 0 0 = k0 := by
      rw [hk0, hkeysdef]
      simp [List.getD_eq_getElem?_getD, List.getElem?_map, List.getElem?_range, hnum]
    rw [e] at h0
    simpa using h0
  have hdrop : keys.drop 1 = tl := by rw [e]; rfl
  have hbounds := counting_sort_minmax_bounds tl k0 k0 le_rfl
  rw [← hdrop] at hbounds
  rw [← hmm] at hbounds
  have hall : ∀ a ∈ keys, mm.1 ≤ a ∧ a ≤ mm.2 := by
    intro a ha
    rw [e] at ha
    rcases List.mem_cons.mp ha with rfl | hmem
    · rw [hhd]
      exact ⟨hbounds.1, hbounds.2.1⟩
    · exact hbounds.2.2 a (hdrop ▸ hmem)
  have hperm : (counting_sort_emit mm.1 (mm.2 - mm.1 + 1).toNat cnt).Perm keys := by
    rw [List.perm_iff_count]
    intro v
    rw [counting_sort_emit_count]
    by_cases hc : mm.1 ≤ v ∧ (v - mm.1).toNat < (mm.2 - mm.1 + 1).toNat
    · rw [if_pos hc, hcnt, counting_sort_hist_apply]
      simp only [Nat.zero_add]
      rw [List.count_eq_countP]
      apply List.countP_congr
      intro a ha
      have hba := hall a ha
      simp only [beq_iff_eq, decide_eq_decide, decide_eq_true_eq]
      omega
    · rw [if_neg hc]
      symm
      rw [List.count_eq_zero]
      intro hmem
      have hba := hall v hmem
      omega
  have hel : (counting_sort_emit mm.1 (mm.2 - mm.1 + 1).toNat cnt).length = num := by
    rw [hperm.length_eq, hkl]
  have hnle : num ≤ array.length := le_trans (Nat.le_mul_of_pos_right num (by omega)) hlen
  refine ⟨?_, ?_, ?_, ?_⟩
  · rw [hout, List.length_append, hel, List.length_drop]
    omega
  · rw [hout, ← hel, List.take_left]
    exact hperm
  · rw [hout, ← hel, List.take_left]
    exact counting_sort_emit_sorted _ _ _
  · rw [hout, ← hel, List.drop_left]

/-- C7 (counterexample): with stride `size = 2` the keys of
`[3, 99, 1, 98]` are `3` and `1`, but after `counting_sort` the array is
`[1, 3, 1, 98]` -- the sorted keys were emitted contiguously, so the key
sequence at the stride afterwards is `[1, 1]`, not a permutation of the input
keys `[3, 1]`. -/
theorem counting_sort_stride_counterexample :
    counting_sort [3, 99, 1, 98] 2 2 = [1, 3, 1, 98] ∧
    ¬ ((List.range 2).map (fun i => (counting_sort [3, 99, 1, 98] 2 2).getD (i * 2) 0)).Perm
        ((List.range 2).map (fun i => ([3, 99, 1, 98] : List Int).getD (i * 2) 0)) := by
  constructor
  · decide
  · decide

/-- Witness for `counting_sort_correct` on `[3, 99, 1, 98]` with `num = 2`,
`size = 2`. -/
theorem counting_sort_correct_witness :
    ((0 : Nat) < 2 ∧ (1 : Nat) ≤ 2 ∧ 2 * 2 ≤ ([3, 99, 1, 98] : List Int).length) ∧
    ((counting_sort [3, 99, 1, 98] 2 2).length = ([3, 99, 1, 98] : List Int).length ∧
      ((counting_sort [3, 99, 1, 98] 2 2).take 2).Perm
        ((List.range 2).map (fun i => ([3, 99, 1, 98] : List Int).getD (i * 2) 0)) ∧
      ((counting_sort [3, 99, 1, 98] 2 2).take 2).Pairwise (· ≤ ·) ∧
      (counting_sort [3, 99, 1, 98] 2 2).drop 2 = ([3, 99, 1, 98] : List Int).drop 2) :=
  ⟨⟨by decide, by decide, by decide⟩,
    counting_sort_correct [3, 99, 1, 98] 2 2 (by decide) (by decide) (by decide)⟩

/-! ## The histogram / prefix-offset / fetch-and-add scatter idiom

`edge_list_to_csr`, `bucket_sort_pairs` and each digit pass of
`radix_sort_pairs` all use the same C idiom: histogram the keys, turn the
histogram into per-bucket start offsets (an inclusive prefix sum read through
a decremented pointer, i.e. an exclusive prefix sum), then place each item at
`stinger_int64_fetch_add(&offset[key], ...)`.  We model the idiom once:

* `histogram` is the counting loop (`offset[key]++` over the items);
* `sumBelow cnt b` is the exclusive prefix `cnt 0 + ... + cnt (b-1)`, the
  value the bucket-`b` cursor holds when the placement loop starts;
* `scatter` is the sequential placement loop: it bumps the bucket cursor and
  writes the item at the claimed index (the sequential semantics of the
  parallel fetch-and-add, which the spec's ordering claims implicitly assume);
* `bucketed` is what the scatter provably produces: the items grouped by
  ascending key, each bucket in input order.
-/

def histogram {α : Type} (key : α → Nat) : List α → (Nat → Nat) → (Nat → Nat)
  | [], c => c
  | x :: xs, c => histogram key xs (Function.update c (key x) (c (key x) + 1))

def sumBelow (cnt : Nat → Nat) (b : Nat) : Nat := ((List.range b).map cnt).sum

def scatter {α : Type} (key : α → Nat) :
    List α → (Nat → Nat) → (Nat → Option α) → (Nat → Nat) × (Nat → Option α)
  | [], ctr, out => (ctr, out)
  | x :: xs, ctr, out =>
      scatter key xs (Function.update ctr (key x) (ctr (key x) + 1))
        (Function.update out (ctr (key x)) (some x))

def bucketed {α : Type} (key : α → Nat) (B : Nat) (xs : List α) : List α :=
  (List.range B).flatMap (fun b => xs.filter (fun x => decide (key x = b)))

def keyCount {α : Type} (key : α → Nat) (xs : List α) (b : Nat) : Nat :=
  xs.countP (fun x => decide (key x = b))

theorem histogram_apply {α : Type} (key : α → Nat) (xs : List α) (c : Nat → Nat) (b : Nat) :
    histogram key xs c b = c b + keyCount key xs b := by
  induction xs generalizing c with
  | nil => simp [histogram, keyCount]
  | cons x t ih =>
      simp only [histogram]
      rw [ih]
      unfold keyCount
      rw [List.countP_cons]
      by_cases hb : key x = b
      · subst hb
        simp only [Function.update_same]
        norm_num
        omega
      · rw [Function.update_noteq (fun h => hb h.symm)]
        simp [hb]

theorem keyCount_cons_self {α : Type} (key : α → Nat) (x : α) (t : List α) :
    keyCount key (x :: t) (key x) = keyCount key t (key x) + 1 := by
  unfold keyCount
  rw [List.countP_cons]
  simp

theorem keyCount_cons_ne {α : Type} (key : α → Nat) (x : α) (t : List α) {b : Nat}
    (hb : ¬ key x = b) : keyCount key (x :: t) b = keyCount key t b := by
  unfold keyCount
  rw [List.countP_cons]
  simp [hb]

theorem keyFilter_cons_self {α : Type} (key : α → Nat) (x : α) (t : List α) :
    (x :: t).filter (fun y => decide (key y = key x)) =
      x :: t.filter (fun y => decide (key y = key x)) :=
  List.filter_cons_of_pos (by simp)

theorem keyFilter_cons_ne {α : Type} (key : α → Nat) (x : α) (t : List α) {b : Nat}
    (hb : ¬ key x = b) :
    (x :: t).filter (fun y => decide (key y = b)) = t.filter (fun y => decide (key y = b)) :=
  List.filter_cons_of_neg (by simp [hb])

theorem scatter_spec {α : Type} (key : α → Nat) (xs : List α) (ctr : Nat → Nat)
    (out : Nat → Option α)
    (hdisj : ∀ b b', b ≠ b' →
      ctr b + keyCount key xs b ≤ ctr b' ∨ ctr b' + keyCount key xs b' ≤ ctr b) :
    (∀ b, (scatter key xs ctr out).1 b = ctr b + keyCount key xs b) ∧
    (∀ b j, j < keyCount key xs b →
      (scatter key xs ctr out).2 (ctr b + j) = (xs.filter (fun x => decide (key x = b)))[j]?) ∧
    (∀ p, (∀ b, p < ctr b ∨ ctr b + keyCount key xs b ≤ p) →
      (scatter key xs ctr out).2 p = out p) := by
  induction xs generalizing ctr out with
  | nil =>
      refine ⟨fun b => by simp [scatter, keyCount], fun b j hj => by simp [keyCount] at hj,
        fun p _ => by simp [scatter]⟩
  | cons x t ih =>
      set ctr' := Function.update ctr (key x) (ctr (key x) + 1) with hctr'
      set out' := Function.update out (ctr (key x)) (some x) with hout'
      have hstep : scatter key (x :: t) ctr out = scatter key t ctr' out' := rfl
      have hctr'app : ∀ b, ctr' b = if b = key x then ctr (key x) + 1 else ctr b := by
        intro b
        by_cases hb : b = key x
        · subst hb; simp [hctr', Function.update]
        · simp [hctr', Function.update, hb]
      have hdisj' : ∀ b b', b ≠ b' →
          ctr' b + keyCount key t b ≤ ctr' b' ∨ ctr' b' + keyCount key t b' ≤ ctr' b := by
        intro b b' hbb
        have h0 := hdisj b b' hbb
        rw [hctr'app b, hctr'app b']
        rcases eq_or_ne b (key x) with rfl | hb
        · rw [keyCount_cons_self, keyCount_cons_ne key x t hbb] at h0
          rw [if_pos rfl, if_neg (fun h => hbb h.symm)]
          omega
        · rcases eq_or_ne b' (key x) with rfl | hb'
          · rw [keyCount_cons_ne key x t (fun h => hb h.symm), keyCount_cons_self] at h0
            rw [if_neg hb, if_pos rfl]
            omega
          · rw [keyCount_cons_ne key x t (fun h => hb h.symm),
              keyCount_cons_ne key x t (fun h => hb' h.symm)] at h0
            rw [if_neg hb, if_neg hb']
            omega
      obtain ⟨ih1, ih2, ih3⟩ := ih ctr' out' hdisj'
      refine ⟨?_, ?_, ?_⟩
      · intro b
        rw [hstep, ih1 b, hctr'app b]
        rcases eq_or_ne b (key x) with rfl | hb
        · rw [keyCount_cons_self, if_pos rfl]
          omega
        · rw [keyCount_cons_ne key x t (fun h => hb h.symm), if_neg hb]
      · intro b j hj
        rcases eq_or_ne b (key x) with rfl | hb
        · cases j with
          | zero =>
              rw [hstep, Nat.add_zero, ih3 (ctr (key x)) ?side]
              case side =>
                intro b'
                rcases eq_or_ne b' (key x) with rfl | hb'
                · left
                  rw [hctr'app, if_pos rfl]
                  omega
                · have h0 := hdisj (key x) b' (fun h => hb' h.symm)
                  rw [keyCount_cons_self, keyCount_cons_ne key x t (fun h => hb' h.symm)] at h0
                  rw [hctr'app, if_neg hb']
                  omega
              rw [hout', Function.update_same, keyFilter_cons_self]
              simp
          | succ j' =>
              have e : ctr (key x) + (j' + 1) = ctr' (key x) + j' := by
                rw [hctr'app, if_pos rfl]
                omega
              rw [keyCount_cons_self] at hj
              rw [hstep, e, ih2 (key x) j' (by omega), keyFilter_cons_self,
                List.getElem?_cons_succ]
        · have e : ctr b = ctr' b := by rw [hctr'app, if_neg hb]
          rw [keyCount_cons_ne key x t (fun h => hb h.symm)] at hj
          rw [hstep, e, ih2 b j hj, keyFilter_cons_ne key x t (fun h => hb h.symm)]
      · intro p hp
        have hp' : ∀ b, p < ctr' b ∨ ctr' b + keyCount key t b ≤ p := by
          intro b
          have h0 := hp b
          rcases eq_or_ne b (key x) with rfl | hb
          · rw [keyCount_cons_self] at h0
            rw [hctr'app, if_pos rfl]
            omega
          · rw [keyCount_cons_ne key x t (fun h => hb h.symm)] at h0
            rw [hctr'app, if_neg hb]
            omega
        rw [hstep, ih3 p hp', hout', Function.update_noteq ?ne]
        case ne =>
          have h0 := hp (key x)
          rw [keyCount_cons_self] at h0
          omega

theorem sumBelow_succ (cnt : Nat → Nat) (b : Nat) :
    sumBelow cnt (b+1) = sumBelow cnt b + cnt b := by
  unfold sumBelow
  rw [List.range_succ]
  simp

theorem sumBelow_mono (cnt : Nat → Nat) {a b : Nat} (h : a ≤ b) :
    sumBelow cnt a ≤ sumBelow cnt b := by
  induction b with
  | zero => simp [Nat.le_zero.mp h]
  | succ b ih =>
      rcases Nat.lt_or_ge a (b+1) with h' | h'
      · exact le_trans (ih (by omega)) (by rw [sumBelow_succ]; omega)
      · have : a = b + 1 := by omega
        subst this
        exact le_refl _

theorem sumBelow_disj {α : Type} (key : α → Nat) (xs : List α) :
    ∀ b b', b ≠ b' →
      sumBelow (keyCount key xs) b + keyCount key xs b ≤ sumBelow (keyCount key xs) b' ∨
      sumBelow (keyCount key xs) b' + keyCount key xs b' ≤ sumBelow (keyCount key xs) b := by
  intro b b' hbb
  rcases Nat.lt_or_ge b b' with h | h
  · left
    rw [← sumBelow_succ]
    exact sumBelow_mono _ h
  · right
    rw [← sumBelow_succ]
    exact sumBelow_mono _ (by omega)

theorem sumBelow_add (f g : Nat → Nat) (b : Nat) :
    sumBelow (fun i => f i + g i) b = sumBelow f b + sumBelow g b := by
  induction b with
  | zero => simp [sumBelow]
  | succ b ih => rw [sumBelow_succ, sumBelow_succ, sumBelow_succ, ih]; omega

theorem sumBelow_congr {f g : Nat → Nat} (b : Nat) (h : ∀ i, i < b → f i = g i) :
    sumBelow f b = sumBelow g b := by
  induction b with
  | zero => simp [sumBelow]
  | succ b ih =>
      rw [sumBelow_succ, sumBelow_succ, ih (fun i hi => h i (by omega)), h b (by omega)]

theorem sumBelow_indicator (k : Nat) (b : Nat) :
    sumBelow (fun i => if k = i then 1 else 0) b = if k < b then 1 else 0 := by
  induction b with
  | zero => simp [sumBelow]
  | succ b ih =>
      rw [sumBelow_succ, ih]
      rcases eq_or_ne k b with rfl | hk
      · rw [if_neg (by omega), if_pos rfl, if_pos (by omega)]
      · rw [if_neg hk]
        rcases Nat.lt_or_ge k b with h | h
        · rw [if_pos h, if_pos (by omega)]
        · rw [if_neg (by omega), if_neg (by omega)]

theorem sumBelow_zero (b : Nat) : sumBelow (fun _ => 0) b = 0 := by
  induction b with
  | zero => simp [sumBelow]
  | succ b ih => rw [sumBelow_succ, ih]

theorem sumBelow_keyCount_total {α : Type} (key : α → Nat) (xs : List α) (B : Nat)
    (hkeys : ∀ x ∈ xs, key x < B) :
    sumBelow (keyCount key xs) B = xs.length := by
  induction xs with
  | nil =>
      have e : ∀ b, keyCount key ([] : List α) b = 0 := fun b => by simp [keyCount]
      rw [sumBelow_congr B (fun i _ => e i), sumBelow_zero]
      rfl
  | cons x t ih =>
      have e : ∀ b, keyCount key (x :: t) b =
          keyCount key t b + (if key x = b then 1 else 0) := by
        intro b
        rcases eq_or_ne (key x) b with rfl | hb
        · rw [keyCount_cons_self, if_pos rfl]
        · rw [keyCount_cons_ne key x t hb, if_neg hb]
          omega
      rw [sumBelow_congr B (fun i _ => e i), sumBelow_add, sumBelow_indicator,
        ih (fun y hy => hkeys y (by simp [hy])), if_pos (hkeys x (by simp))]
      simp

theorem keyCount_eq_length_filter {α : Type} (key : α → Nat) (xs : List α) (b : Nat) :
    keyCount key xs b = (xs.filter (fun x => decide (key x = b))).length := by
  unfold keyCount
  rw [List.countP_eq_length_filter]

theorem scatter_read {α : Type} (key : α → Nat) (B : Nat) (xs : List α)
    (out0 : Nat → Option α) (hkeys : ∀ x ∈ xs, key x < B) :
    (List.range xs.length).map (scatter key xs (sumBelow (keyCount key xs)) out0).2 =
      (bucketed key B xs).map some := by
  obtain ⟨s1, s2, s3⟩ := scatter_spec key xs (sumBelow (keyCount key xs)) out0
    (sumBelow_disj key xs)
  have seg : ∀ b, (List.range (keyCount key xs b)).map
      (fun i => (scatter key xs (sumBelow (keyCount key xs)) out0).2
        (sumBelow (keyCount key xs) b + i)) =
      (xs.filter (fun x => decide (key x = b))).map some := by
    intro b
    apply List.ext_getElem?
    intro i
    rcases Nat.lt_or_ge i (keyCount key xs b) with hi | hi
    · have hif : i < (xs.filter (fun x => decide (key x = b))).length := by
        rw [← keyCount_eq_length_filter]
        exact hi
      rw [List.getElem?_map, List.getElem?_map, List.getElem?_range hi,
        List.getElem?_eq_getElem hif]
      simp only [Option.map_some']
      rw [s2 b i hi, List.getElem?_eq_getElem hif]
    · have hif : (xs.filter (fun x => decide (key x = b))).length ≤ i := by
        rw [← keyCount_eq_length_filter]
        omega
      rw [List.getElem?_map, List.getElem?_map, List.getElem?_eq_none (by simpa using hi),
        List.getElem?_eq_none hif]
      rfl
  have main : ∀ b, (List.range (sumBelow (keyCount key xs) b)).map
      (scatter key xs (sumBelow (keyCount key xs)) out0).2 =
      ((List.range b).flatMap (fun v => xs.filter (fun x => decide (key x = v)))).map some := by
    intro b
    induction b with
    | zero => simp [sumBelow]
    | succ b ih =>
        rw [sumBelow_succ, List.range_add, List.map_append, ih, List.range_succ,
          List.flatMap_append, List.map_append]
        congr 1
        rw [List.flatMap_cons, List.flatMap_nil, List.append_nil, ← seg b, List.map_map]
        rfl
  have := main B
  rw [sumBelow_keyCount_total key xs B hkeys] at this
  exact this

theorem bucketed_perm {α : Type} [DecidableEq α] (key : α → Nat) (B : Nat) (xs : List α)
    (hkeys : ∀ x ∈ xs, key x < B) : (bucketed key B xs).Perm xs := by
  rw [List.perm_iff_count]
  intro y
  have aux : ∀ b, ((List.range b).flatMap
      (fun v => xs.filter (fun x => decide (key x = v)))).count y =
      if key y < b then xs.count y else 0 := by
    intro b
    induction b with
    | zero => simp
    | succ b ih =>
        rw [List.range_succ, List.flatMap_append, List.count_append, ih,
          List.flatMap_cons, List.flatMap_nil, List.append_nil]
        rcases eq_or_ne (key y) b with rfl | hb
        · rw [if_neg (by omega), if_pos (by omega), List.count_filter (by simp)]
          try omega
        · have hz : (xs.filter (fun x => decide (key x = b))).count y = 0 := by
            rw [List.count_eq_zero]
            intro hm
            have := (List.mem_filter.mp hm).2
            simp at this
            exact hb this
          rw [hz]
          rcases Nat.lt_or_ge (key y) b with h | h
          · rw [if_pos h, if_pos (by omega)]
            try omega
          · rw [if_neg (by omega), if_neg (by omega)]
            try omega
  unfold bucketed
  rw [aux B]
  rcases Nat.lt_or_ge (key y) B with h | h
  · rw [if_pos h]
  · rw [if_neg (by omega), eq_comm, List.count_eq_zero]
    intro hm
    exact absurd (hkeys y hm) (by omega)

theorem scatter_read_getD {α : Type} (key : α → Nat) (B : Nat) (xs : List α)
    (out0 : Nat → Option α) (dflt : α) (hkeys : ∀ x ∈ xs, key x < B) :
    (List.range xs.length).map
        (fun j => ((scatter key xs (sumBelow (keyCount key xs)) out0).2 j).getD dflt) =
      bucketed key B xs := by
  have h := scatter_read key B xs out0 hkeys
  have e : (fun j => ((scatter key xs (sumBelow (keyCount key xs)) out0).2 j).getD dflt) =
      (fun o => o.getD dflt) ∘ (scatter key xs (sumBelow (keyCount key xs)) out0).2 := rfl
  rw [e, ← List.map_map, h, List.map_map]
  show (bucketed key B xs).map (fun a => a) = bucketed key B xs
  exact List.map_id' (bucketed key B xs)

/-! ## `edge_list_to_csr` (stinger_utils.c lines 652-694)

The function zeroes `offset[0..nv+1]`, histograms the source vertices through
`offset+2`, computes the bucket start offsets with an in-place prefix pass and
a pointer decrement, and scatters each edge with
`index = fetch_add(&offset[sv1[i]], 1); ev2[index] = ev1[i]; w2[index] = w1[i]`.
After the scatter, `offset[0] = 0` and `offset[v]` (for `v ≥ 1`) holds the
final cursor of bucket `v-1`, i.e. the start of bucket `v` -- which is exactly
how the returned offset array is meant to be read.  We model the parallel
input arrays as one zipped list of `(source, destination, weight)` triples and
the timestamp-free branch of the scatter (the `timeRecent && timeFirst` branch
writes `ev2`/`w2` identically and additionally fills `t1`/`t2`). -/

/-- The bucket key of an edge triple: its source vertex.  The C code indexes
`offset[]` directly with the `int64_t` source; sources are assumed (and in the
round-trip theorem hypothesized) to lie in `[0, nv)`. -/
def csrKey (e : Int × Int × Int) : Nat := e.1.toNat

/-- `edge_list_to_csr` (lines 652-694): returns the offset array (as a
function of the vertex), and the `ev2` / `w2` arrays (as functions of the edge
slot), modelling the histogram + prefix + fetch-and-add scatter. -/
def edge_list_to_csr (nv : Nat) (sv1 ev1 w1 : List Int) :
    (Nat → Nat) × ((Nat → Int) × (Nat → Int)) :=
  let edges := sv1.zip (ev1.zip w1)
  let cnt := histogram csrKey edges (fun _ => 0)
  let res := scatter csrKey edges (sumBelow cnt) (fun _ => none)
  (fun v => if v = 0 then 0 else res.1 (v - 1),
   (fun j => ((res.2 j).getD (0, 0, 0)).2.1,
    fun j => ((res.2 j).getD (0, 0, 0)).2.2))

/-- CSR-to-edge-list reconstruction: pair every vertex `v` with every
`(destination, weight)` entry in its offset range `off[v]..off[v+1])`. -/
def csr_to_edge_list (nv : Nat) (off : Nat → Nat) (ev2 w2 : Nat → Int) :
    List (Int × Int × Int) :=
  (List.range nv).flatMap (fun v =>
    (List.range' (off v) (off (v+1) - off v)).map (fun j => ((v : Int), ev2 j, w2 j)))

/-- C4: for every edge list over `nv` vertices (duplicates included), running
`edge_list_to_csr` and then reconstructing the edge list from the produced
offset/ev2/w2 arrays yields exactly the same multiset of
(source, destination, weight) triples as the input; duplicates are preserved,
not merged. -/
theorem edge_list_to_csr_round_trip (nv : Nat) (sv1 ev1 w1 : List Int)
    (hlen1 : ev1.length = sv1.length) (hlen2 : w1.length = sv1.length)
    (hsv : ∀ s ∈ sv1, 0 ≤ s ∧ s < (nv : Int)) :
    (csr_to_edge_list nv (edge_list_to_csr nv sv1 ev1 w1).1
        (edge_list_to_csr nv sv1 ev1 w1).2.1 (edge_list_to_csr nv sv1 ev1 w1).2.2).Perm
      (sv1.zip (ev1.zip w1)) := by
  set edges := sv1.zip (ev1.zip w1) with hedges
  have hcnt : (histogram csrKey edges (fun _ => 0)) = keyCount csrKey edges := by
    funext b
    rw [histogram_apply]
    omega
  have hkeys : ∀ e ∈ edges, csrKey e < nv := by
    intro e he
    have hs := (List.of_mem_zip he).1
    have := hsv e.1 hs
    unfold csrKey
    omega
  have hsrc : ∀ e ∈ edges, e.1 = (csrKey e : Int) := by
    intro e he
    have hs := (List.of_mem_zip he).1
    have := hsv e.1 hs
    unfold csrKey
    omega
  obtain ⟨s1, s2, s3⟩ := scatter_spec csrKey edges (sumBelow (keyCount csrKey edges))
    (fun _ => none) (sumBelow_disj csrKey edges)
  have hoff : ∀ v, (edge_list_to_csr nv sv1 ev1 w1).1 v = sumBelow (keyCount csrKey edges) v := by
    intro v
    show (if v = 0 then 0 else (scatter csrKey edges
        (sumBelow (histogram csrKey edges fun _ => 0)) (fun _ => none)).1 (v - 1)) = _
    rw [hcnt]
    rcases Nat.eq_zero_or_pos v with rfl | hv
    · rw [if_pos rfl]
      simp [sumBelow]
    · rw [if_neg (by omega), s1 (v - 1), ← sumBelow_succ]
      congr 1
      omega
  have hslice : ∀ v, v < nv →
      (List.range' (sumBelow (keyCount csrKey edges) v) (keyCount csrKey edges v)).map
        (fun j => ((v : Int), (edge_list_to_csr nv sv1 ev1 w1).2.1 j,
          (edge_list_to_csr nv sv1 ev1 w1).2.2 j)) =
      edges.filter (fun e => decide (csrKey e = v)) := by
    intro v hv
    apply List.ext_getElem?
    intro i
    rcases Nat.lt_or_ge i (keyCount csrKey edges v) with hi | hi
    · have hif : i < (edges.filter (fun e => decide (csrKey e = v))).length := by
        rw [← keyCount_eq_length_filter]
        exact hi
      rw [List.getElem?_map, List.getElem?_range' _ _ hi, Option.map_some',
        List.getElem?_eq_getElem hif]
      simp only [one_mul]
      have hev : (edge_list_to_csr nv sv1 ev1 w1).2.1 (sumBelow (keyCount csrKey edges) v + i) =
          ((edges.filter (fun e => decide (csrKey e = v)))[i]).2.1 := by
        show (((scatter csrKey edges (sumBelow (histogram csrKey edges fun _ => 0))
            (fun _ => none)).2 _).getD (0, 0, 0)).2.1 = _
        rw [hcnt, s2 v i hi, List.getElem?_eq_getElem hif]
        rfl
      have hw : (edge_list_to_csr nv sv1 ev1 w1).2.2 (sumBelow (keyCount csrKey edges) v + i) =
          ((edges.filter (fun e => decide (csrKey e = v)))[i]).2.2 := by
        show (((scatter csrKey edges (sumBelow (histogram csrKey edges fun _ => 0))
            (fun _ => none)).2 _).getD (0, 0, 0)).2.2 = _
        rw [hcnt, s2 v i hi, List.getElem?_eq_getElem hif]
        rfl
      rw [hev, hw]
      have hmem : (edges.filter (fun e => decide (csrKey e = v)))[i] ∈ edges :=
        List.mem_of_mem_filter (List.getElem_mem hif)
      have hkey : csrKey ((edges.filter (fun e => decide (csrKey e = v)))[i]) = v := by
        have := List.getElem_mem hif
        have := (List.mem_filter.mp (List.getElem_mem hif)).2
        simpa using this
      have h1 : ((edges.filter (fun e => decide (csrKey e = v)))[i]).1 = (v : Int) := by
        rw [hsrc _ hmem, hkey]
      congr 1
      exact Prod.ext (by rw [h1]) rfl
    · have hif : (edges.filter (fun e => decide (csrKey e = v))).length ≤ i := by
        rw [← keyCount_eq_length_filter]
        omega
      rw [List.getElem?_map, List.getElem?_eq_none (by simpa using hi),
        List.getElem?_eq_none hif]
      rfl
  have hrw : csr_to_edge_list nv (edge_list_to_csr nv sv1 ev1 w1).1
      (edge_list_to_csr nv sv1 ev1 w1).2.1 (edge_list_to_csr nv sv1 ev1 w1).2.2 =
      bucketed csrKey nv edges := by
    unfold csr_to_edge_list bucketed
    apply List.flatMap_congr
    intro v hv
    have hvlt := List.mem_range.mp hv
    rw [hoff v, hoff (v+1), sumBelow_succ,
      show sumBelow (keyCount csrKey edges) v + keyCount csrKey edges v -
        sumBelow (keyCount csrKey edges) v = keyCount csrKey edges v from by omega]
    exact hslice v hvlt
  rw [hrw]
  exact bucketed_perm csrKey nv edges hkeys

/-- Witness for `edge_list_to_csr_round_trip` on the edge list
`(1,2,5), (0,3,6), (1,2,5)` (with a duplicated edge) over `nv = 2`. -/
theorem edge_list_to_csr_round_trip_witness :
    (([2, 3, 2] : List Int).length = ([1, 0, 1] : List Int).length ∧
      ([5, 6, 5] : List Int).length = ([1, 0, 1] : List Int).length ∧
      ∀ s ∈ ([1, 0, 1] : List Int), 0 ≤ s ∧ s < ((2 : Nat) : Int)) ∧
    (csr_to_edge_list 2 (edge_list_to_csr 2 [1, 0, 1] [2, 3, 2] [5, 6, 5]).1
        (edge_list_to_csr 2 [1, 0, 1] [2, 3, 2] [5, 6, 5]).2.1
        (edge_list_to_csr 2 [1, 0, 1] [2, 3, 2] [5, 6, 5]).2.2).Perm
      (([1, 0, 1] : List Int).zip (([2, 3, 2] : List Int).zip [5, 6, 5])) :=
  ⟨⟨by decide, by decide, by decide⟩,
    edge_list_to_csr_round_trip 2 [1, 0, 1] [2, 3, 2] [5, 6, 5] (by decide) (by decide)
      (by decide)⟩

/-! ## `bucket_sort_pairs` (stinger_utils.c lines 880-949) and
`radix_sort_pairs` (lines 960-1092)

`bucket_sort_pairs` scans the first elements of all pairs after the first for
max and min, histograms `first + (0 - min)`, prefix-sums the (slot-doubled)
histogram through the usual pointer dance, scatters the pairs with
`fetch_add`, copies back, and finally `qsort`s each bucket of at least two
pairs with the exact lexicographic comparator `i64_pair_cmp`.  We model the
slot-doubled offsets at pair granularity (all C offsets are even multiples).

`radix_sort_pairs` scans the second elements for min/max, shifts the seconds
by `-min` to a non-negative range, LSD-radix-sorts the pairs by the shifted
second element (`numBits` per digit pass, digit = `(v >> denShift) & bitMask`,
arithmetic shift modelled as `Int.fdiv` and mask as `Int.emod`), then
LSD-radix-sorts the result by the first element, and un-shifts.  Each digit
pass is the same histogram/prefix/fetch-and-add scatter; the pass loop runs
while `max != 0` with `max = max / numBuckets` (C truncating division,
`Int.tdiv`), modelled with an explicit fuel of `max.natAbs + 1`, which the
loop never exhausts when `numBits ≥ 1`.  Note the second pass derives no
offset for the first elements: negative first keys are masked into high
buckets and a zero maximum skips the pass entirely -- the source of the C1
counterexample. -/

/-- `i64_pair_cmp` (lines 597-613): exact lexicographic comparator on pairs. -/
def i64_pair_cmp (pa pb : Int × Int) : Int :=
  if pa.1 < pb.1 then -1
  else if pa.1 > pb.1 then 1
  else if pa.2 < pb.2 then -1
  else if pa.2 > pb.2 then 1
  else 0

/-- Ascending lexicographic order on (first, second) pairs: the order the
spec claims both sorts produce. -/
def pairLe (x y : Int × Int) : Prop := x.1 < y.1 ∨ (x.1 = y.1 ∧ x.2 ≤ y.2)

instance pairLe_decRel : DecidableRel pairLe := fun x y =>
  decidable_of_iff (x.1 < y.1 ∨ (x.1 = y.1 ∧ x.2 ≤ y.2)) Iff.rfl

theorem i64_pair_cmp_le_iff (x y : Int × Int) : i64_pair_cmp x y ≤ 0 ↔ pairLe x y := by
  unfold i64_pair_cmp pairLe
  split_ifs <;> omega

/-- The `max` scan of lines 890-893 over the pairs after the first. -/
def pairMaxScan : List (Int × Int) → Int → Int
  | [], m => m
  | p :: t, m => pairMaxScan t (if m < p.1 then p.1 else m)

/-- The `min` scan of lines 895-898 over the pairs after the first. -/
def pairMinScan : List (Int × Int) → Int → Int
  | [], m => m
  | p :: t, m => pairMinScan t (if m > p.1 then p.1 else m)

theorem pairMaxScan_spec (t : List (Int × Int)) (m : Int) :
    m ≤ pairMaxScan t m ∧ ∀ p ∈ t, p.1 ≤ pairMaxScan t m := by
  induction t generalizing m with
  | nil => exact ⟨le_refl _, by simp⟩
  | cons q t ih =>
      obtain ⟨h1, h2⟩ := ih (if m < q.1 then q.1 else m)
      refine ⟨le_trans (by split_ifs <;> omega) h1, ?_⟩
      intro p hp
      rcases List.mem_cons.mp hp with rfl | hp
      · exact le_trans (by split_ifs <;> omega) h1
      · exact h2 p hp

theorem pairMinScan_spec (t : List (Int × Int)) (m : Int) :
    pairMinScan t m ≤ m ∧ ∀ p ∈ t, pairMinScan t m ≤ p.1 := by
  induction t generalizing m with
  | nil => exact ⟨le_refl _, by simp⟩
  | cons q t ih =>
      obtain ⟨h1, h2⟩ := ih (if m > q.1 then q.1 else m)
      refine ⟨le_trans h1 (by split_ifs <;> omega), ?_⟩
      intro p hp
      rcases List.mem_cons.mp hp with rfl | hp
      · exact le_trans h1 (by split_ifs <;> omega)
      · exact h2 p hp

/-- `bucket_sort_pairs` (lines 880-949), at pair granularity: min/max scan of
the leading elements, histogram of `first + (0 - min)`, exclusive-prefix
offsets, fetch-and-add scatter into `tmp`, copy back, and a `qsort` (modelled
as `List.insertionSort` with the very comparator `i64_pair_cmp`) of every
bucket with `degree >= 4` slots, i.e. at least two pairs. -/
def bucket_sort_pairs (array : List (Int × Int)) : List (Int × Int) :=
  let maxv := pairMaxScan (array.drop 1) (array.getD 0 (0, 0)).1
  let minv := pairMinScan (array.drop 1) (array.getD 0 (0, 0)).1
  let offset := 0 - minv
  let bkey : Int × Int → Nat := fun p => (p.1 + offset).toNat
  let cnt := histogram bkey array (fun _ => 0)
  let res := scatter bkey array (sumBelow cnt) (fun _ => none)
  let tmp := (List.range array.length).map (fun j => (res.2 j).getD (0, 0))
  (List.range (maxv - minv + 1).toNat).flatMap (fun b =>
    let bucket := (tmp.drop (sumBelow cnt b)).take (cnt b)
    if 2 ≤ cnt b then List.insertionSort (fun x y => i64_pair_cmp x y ≤ 0) bucket else bucket)


theorem bucketed_length {α : Type} (key : α → Nat) (xs : List α) (b : Nat) :
    (bucketed key b xs).length = sumBelow (keyCount key xs) b := by
  induction b with
  | zero => simp [bucketed, sumBelow]
  | succ b ih =>
      unfold bucketed at ih ⊢
      rw [List.range_succ, List.flatMap_append, List.length_append, ih, sumBelow_succ,
        List.flatMap_cons, List.flatMap_nil, List.append_nil, keyCount_eq_length_filter]

theorem bucketed_split {α : Type} (key : α → Nat) (xs : List α) (b k : Nat) :
    ∃ tail, bucketed key (b + 1 + k) xs =
      bucketed key b xs ++ xs.filter (fun x => decide (key x = b)) ++ tail := by
  refine ⟨((List.range k).map (fun i => b + (1 + i))).flatMap
    (fun v => xs.filter (fun x => decide (key x = v))), ?_⟩
  unfold bucketed
  rw [show b + 1 + k = b + (1 + k) from by omega, List.range_add, List.flatMap_append,
    List.append_assoc]
  congr 1
  rw [show 1 + k = k + 1 from by omega, List.range_succ_eq_map, List.map_cons,
    List.flatMap_cons, Nat.add_zero, List.map_map]
  congr 2
  apply List.map_congr_left
  intro i _
  simp [Function.comp]
  omega

theorem bucketed_segment {α : Type} (key : α → Nat) (B : Nat) (xs : List α) (b : Nat)
    (hb : b < B) :
    ((bucketed key B xs).drop (sumBelow (keyCount key xs) b)).take (keyCount key xs b) =
      xs.filter (fun x => decide (key x = b)) := by
  obtain ⟨tail, e⟩ := bucketed_split key xs b (B - b - 1)
  rw [show B = b + 1 + (B - b - 1) from by omega, e, List.append_assoc,
    List.drop_left' (bucketed_length key xs b),
    List.take_left' (keyCount_eq_length_filter key xs b).symm]

theorem flatMap_perm_congr {α β : Type} (l : List α) (f g : α → List β)
    (h : ∀ a ∈ l, (f a).Perm (g a)) : (l.flatMap f).Perm (l.flatMap g) := by
  induction l with
  | nil => simp
  | cons a t ih =>
      rw [List.flatMap_cons, List.flatMap_cons]
      exact (h a (by simp)).append (ih (fun b hb => h b (by simp [hb])))

theorem pairwise_flatMap_buckets {β : Type} (R : β → β → Prop) (B : Nat) (f : Nat → List β)
    (hin : ∀ b, b < B → (f b).Pairwise R)
    (hcross : ∀ b b', b < b' → b' < B → ∀ x ∈ f b, ∀ y ∈ f b', R x y) :
    ((List.range B).flatMap f).Pairwise R := by
  induction B with
  | zero => simp
  | succ B ih =>
      rw [List.range_succ, List.flatMap_append, List.flatMap_cons, List.flatMap_nil,
        List.append_nil]
      refine List.pairwise_append.mpr ⟨ih (fun b hb => hin b (by omega))
        (fun b b' h1 h2 => hcross b b' h1 (by omega)), hin B (by omega), ?_⟩
      intro x hx y hy
      obtain ⟨b, hb, hxb⟩ := List.mem_flatMap.mp hx
      exact hcross b B (List.mem_range.mp hb) (by omega) x hxb y hy

theorem pairwise_of_length_le_one {β : Type} {R : β → β → Prop} (l : List β)
    (hl : l.length ≤ 1) : l.Pairwise R := by
  match l with
  | [] => exact List.Pairwise.nil
  | [x] => exact List.pairwise_singleton R x
  | x :: y :: t => simp at hl

theorem mem_head_or_drop {α : Type} (l : List α) (d : α) :
    ∀ p ∈ l, p = l.getD 0 d ∨ p ∈ l.drop 1 := by
  cases l with
  | nil => simp
  | cons a t =>
      intro p hp
      rcases List.mem_cons.mp hp with rfl | hp
      · exact Or.inl rfl
      · exact Or.inr (by simpa using hp)

theorem bucket_sort_pairs_correct (array : List (Int × Int)) :
    (bucket_sort_pairs array).Perm array ∧ (bucket_sort_pairs array).Pairwise pairLe := by
  set a0 := (array.getD 0 (0, 0)).1 with ha0
  set maxv := pairMaxScan (array.drop 1) a0 with hmaxv
  set minv := pairMinScan (array.drop 1) a0 with hminv
  set bkey : Int × Int → Nat := fun p => (p.1 + (0 - minv)).toNat with hbkey
  set B := (maxv - minv + 1).toNat with hB
  have hbody : bucket_sort_pairs array = (List.range B).flatMap (fun b =>
      let bucket := (((List.range array.length).map
        (fun j => ((scatter bkey array (sumBelow (histogram bkey array (fun _ => 0)))
          (fun _ => none)).2 j).getD (0, 0))).drop (sumBelow (histogram bkey array (fun _ => 0)) b)).take
            (histogram bkey array (fun _ => 0) b)
      if 2 ≤ histogram bkey array (fun _ => 0) b then
        List.insertionSort (fun x y => i64_pair_cmp x y ≤ 0) bucket
      else bucket) := rfl
  clear_value B bkey minv maxv a0
  have hbkeyapp : ∀ p : Int × Int, bkey p = (p.1 + (0 - minv)).toNat := fun p => by
    rw [hbkey]
  have hbound : ∀ p ∈ array, minv ≤ p.1 ∧ p.1 ≤ maxv := by
    intro p hp
    obtain ⟨hmax1, hmax2⟩ := pairMaxScan_spec (array.drop 1) a0
    obtain ⟨hmin1, hmin2⟩ := pairMinScan_spec (array.drop 1) a0
    rcases mem_head_or_drop array (0, 0) p hp with he | hd
    · constructor
      · rw [hminv]
        calc pairMinScan (array.drop 1) a0 ≤ a0 := hmin1
          _ = p.1 := by rw [he, ha0]
      · rw [hmaxv]
        calc p.1 = a0 := by rw [he, ha0]
          _ ≤ pairMaxScan (array.drop 1) a0 := hmax1
    · exact ⟨hminv ▸ hmin2 p hd, hmaxv ▸ hmax2 p hd⟩
  have hkeys : ∀ p ∈ array, bkey p < B := by
    intro p hp
    have := hbound p hp
    rw [hbkeyapp p, hB]
    omega
  have hfirst : ∀ b, ∀ p ∈ array.filter (fun x => decide (bkey x = b)), p.1 = minv + b := by
    intro b p hp
    have hm := List.mem_filter.mp hp
    have hb1 := hbound p hm.1
    have hb2 : bkey p = b := by simpa using hm.2
    rw [hbkeyapp p] at hb2
    omega
  have hcnt : (histogram bkey array (fun _ => 0)) = keyCount bkey array := by
    funext b
    rw [histogram_apply]
    omega
  have htmp : (List.range array.length).map
      (fun j => ((scatter bkey array (sumBelow (histogram bkey array (fun _ => 0)))
        (fun _ => none)).2 j).getD (0, 0)) = bucketed bkey B array := by
    rw [hcnt]
    exact scatter_read_getD bkey B array (fun _ => none) (0, 0) hkeys
  have hbucket : ∀ b, b < B → (((List.range array.length).map
      (fun j => ((scatter bkey array (sumBelow (histogram bkey array (fun _ => 0)))
        (fun _ => none)).2 j).getD (0, 0))).drop
          (sumBelow (histogram bkey array (fun _ => 0)) b)).take
            (histogram bkey array (fun _ => 0) b) =
      array.filter (fun x => decide (bkey x = b)) := by
    intro b hb
    rw [htmp, hcnt]
    exact bucketed_segment bkey B array b hb
  haveI htot : IsTotal (Int × Int) (fun x y => i64_pair_cmp x y ≤ 0) := by
    constructor
    intro x y
    rw [i64_pair_cmp_le_iff, i64_pair_cmp_le_iff]
    unfold pairLe
    omega
  haveI htrans : IsTrans (Int × Int) (fun x y => i64_pair_cmp x y ≤ 0) := by
    constructor
    intro x y z hxy hyz
    rw [i64_pair_cmp_le_iff] at hxy hyz ⊢
    unfold pairLe at hxy hyz ⊢
    omega
  have hsortmem : ∀ b, b < B → ∀ q ∈ (if 2 ≤ histogram bkey array (fun _ => 0) b then
      List.insertionSort (fun x y => i64_pair_cmp x y ≤ 0)
        (array.filter (fun x => decide (bkey x = b)))
      else array.filter (fun x => decide (bkey x = b))),
      q ∈ array.filter (fun x => decide (bkey x = b)) := by
    intro b hb q hq
    split_ifs at hq with hc
    · exact (List.perm_insertionSort (fun x y => i64_pair_cmp x y ≤ 0) _).mem_iff.mp hq
    · exact hq
  constructor
  · rw [hbody]
    have step1 : ((List.range B).flatMap (fun b =>
        let bucket := (((List.range array.length).map
          (fun j => ((scatter bkey array (sumBelow (histogram bkey array (fun _ => 0)))
            (fun _ => none)).2 j).getD (0, 0))).drop
              (sumBelow (histogram bkey array (fun _ => 0)) b)).take
                (histogram bkey array (fun _ => 0) b)
        if 2 ≤ histogram bkey array (fun _ => 0) b then
          List.insertionSort (fun x y => i64_pair_cmp x y ≤ 0) bucket
        else bucket)).Perm (bucketed bkey B array) := by
      unfold bucketed
      apply flatMap_perm_congr
      intro b hb
      rw [hbucket b (List.mem_range.mp hb)]
      split_ifs
      · exact List.perm_insertionSort _ _
      · exact List.Perm.refl _
    exact step1.trans (bucketed_perm bkey B array hkeys)
  · rw [hbody]
    apply pairwise_flatMap_buckets
    · intro b hb
      rw [hbucket b hb]
      split_ifs with hc
      · exact ((List.sorted_insertionSort _ _).imp
          (fun {x y} h => (i64_pair_cmp_le_iff x y).mp h))
      · apply pairwise_of_length_le_one
        rw [← keyCount_eq_length_filter]
        rw [hcnt] at hc
        omega
    · intro b b' hbb hb' x hx y hy
      rw [hbucket b (by omega)] at hx
      rw [hbucket b' hb'] at hy
      simp only [] at hx hy
      have hxf := hsortmem b (by omega) x hx
      have hyf := hsortmem b' hb' y hy
      have h1 := hfirst b x hxf
      have h2 := hfirst b' y hyf
      unfold pairLe
      omega

/-- The radix sort's `max` scan (lines 970-981 scan every second element,
starting from `x[1]`; lines 1031-1036 likewise scan the first elements). -/
def i64MaxScan : List Int → Int → Int
  | [], m => m
  | v :: t, m => i64MaxScan t (if m < v then v else m)

/-- The radix sort's `min` scan over every second element. -/
def i64MinScan : List Int → Int → Int
  | [], m => m
  | v :: t, m => i64MinScan t (if m > v then v else m)

theorem i64MaxScan_spec (t : List Int) (m : Int) :
    m ≤ i64MaxScan t m ∧ ∀ v ∈ t, v ≤ i64MaxScan t m := by
  induction t generalizing m with
  | nil => exact ⟨le_refl _, by simp⟩
  | cons q t ih =>
      obtain ⟨h1, h2⟩ := ih (if m < q then q else m)
      refine ⟨le_trans (by split_ifs <;> omega) h1, ?_⟩
      intro v hv
      rcases List.mem_cons.mp hv with rfl | hv
      · exact le_trans (by split_ifs <;> omega) h1
      · exact h2 v hv

theorem i64MinScan_spec (t : List Int) (m : Int) :
    i64MinScan t m ≤ m ∧ ∀ v ∈ t, i64MinScan t m ≤ v := by
  induction t generalizing m with
  | nil => exact ⟨le_refl _, by simp⟩
  | cons q t ih =>
      obtain ⟨h1, h2⟩ := ih (if m > q then q else m)
      refine ⟨le_trans h1 (by split_ifs <;> omega), ?_⟩
      intro v hv
      rcases List.mem_cons.mp hv with rfl | hv
      · exact le_trans h1 (by split_ifs <;> omega)
      · exact h2 v hv

/-- The digit `(v >> denShift) & bitMask` of lines 1002/1017/1050/1063: the
arithmetic right shift of an `int64_t` is `Int.fdiv` by `2^denShift`, and the
`&` with `bitMask = numBuckets - 1` keeps the low `numBits` bits, i.e.
`Int.emod` by `2^numBits` on the two's-complement pattern. -/
def radixDigit (numBits : Nat) (sh : Nat) (v : Int) : Nat :=
  ((v.fdiv (2^sh)).emod (2^numBits)).toNat

/-- One digit pass of `radix_sort_pairs` (lines 993-1028 and 1041-1074):
zero the buckets, histogram the digits, exclusive-prefix offsets through the
pointer dance, fetch-and-add scatter from `copy1` to `copy2`. -/
def radix_pass (numBits : Nat) (sh : Nat) (f : Int × Int → Int) (xs : List (Int × Int)) :
    List (Int × Int) :=
  let key := fun p => radixDigit numBits sh (f p)
  let cnt := histogram key xs (fun _ => 0)
  let res := scatter key xs (sumBelow cnt) (fun _ => none)
  (List.range xs.length).map (fun j => (res.2 j).getD (0, 0))

/-- The digit-pass loop `for (i = 0; max != 0; max = max / numBuckets, i++)`.
The `fuel` argument makes the recursion structural; callers pass
`max.natAbs + 1`, which is never exhausted when `numBits ≥ 1` (each iteration
divides `max` by `numBuckets ≥ 2`); for `numBits = 0` the C loop does not
terminate at all. -/
def radix_loop (numBits : Nat) (fuel : Nat) (maxv : Int) (sh : Nat) (f : Int × Int → Int)
    (xs : List (Int × Int)) : List (Int × Int) :=
  match fuel with
  | 0 => xs
  | fuel + 1 =>
      if maxv = 0 then xs
      else radix_loop numBits fuel (maxv.tdiv (2^numBits)) (sh + numBits) f
        (radix_pass numBits sh f xs)

/-- `radix_sort_pairs` (lines 960-1092): shift seconds non-negative, radix
passes on the shifted second element, fresh max over the first elements,
radix passes on the first element, un-shift. -/
def radix_sort_pairs (x : List (Int × Int)) (numBits : Nat) : List (Int × Int) :=
  let maxv0 := i64MaxScan (x.map Prod.snd) (x.getD 0 (0, 0)).2
  let minv0 := i64MinScan (x.map Prod.snd) (x.getD 0 (0, 0)).2
  let m := 0 - minv0
  let shifted := x.map (fun p => (p.1, p.2 + m))
  let phase1 := radix_loop numBits ((maxv0 + m).natAbs + 1) (maxv0 + m) 0 Prod.snd shifted
  let maxv1 := i64MaxScan (phase1.map Prod.fst) (phase1.getD 0 (0, 0)).1
  let phase2 := radix_loop numBits (maxv1.natAbs + 1) maxv1 0 Prod.fst phase1
  phase2.map (fun p => (p.1, p.2 - m))


theorem radixDigit_lt (w sh : Nat) (v : Int) : radixDigit w sh v < 2^w := by
  unfold radixDigit
  have h1 : 0 ≤ (v.fdiv (2^sh)).emod (2^w) := Int.emod_nonneg _ (by positivity)
  have h2 : (v.fdiv (2^sh)).emod (2^w) < 2^w := Int.emod_lt_of_pos _ (by positivity)
  have hc : ((2^w : Nat) : Int) = (2 : Int)^w := by push_cast; ring
  omega

theorem radixDigit_nonneg (w sh : Nat) (v : Int) (hv : 0 ≤ v) :
    radixDigit w sh v = v.toNat / 2^sh % 2^w := by
  unfold radixDigit
  rw [Int.fdiv_eq_ediv _ (by positivity)]
  obtain ⟨n, rfl⟩ := Int.eq_ofNat_of_zero_le hv
  norm_cast

/-- LSD-radix loop invariant: sorted by the key's value modulo `M` (the bits
already processed), ties broken by the auxiliary relation `s` that the input
order satisfied (stability). -/
def radixRel (f : Int × Int → Int) (s : Int × Int → Int × Int → Prop) (M : Nat)
    (a b : Int × Int) : Prop :=
  (f a).toNat % M < (f b).toNat % M ∨ ((f a).toNat % M = (f b).toNat % M ∧ s a b)

def radixRelTop (f : Int × Int → Int) (s : Int × Int → Int × Int → Prop)
    (a b : Int × Int) : Prop :=
  (f a).toNat < (f b).toNat ∨ ((f a).toNat = (f b).toNat ∧ s a b)

theorem radixRel_to_top (f : Int × Int → Int) (s : Int × Int → Int × Int → Prop) (sh : Nat)
    (xs : List (Int × Int)) (hk : ∀ p ∈ xs, (f p).toNat < 2^sh)
    (h : xs.Pairwise (radixRel f s (2^sh))) : xs.Pairwise (radixRelTop f s) := by
  refine List.Pairwise.imp_of_mem ?_ h
  intro a b ha hb hr
  unfold radixRel at hr
  unfold radixRelTop
  rw [Nat.mod_eq_of_lt (hk a ha), Nat.mod_eq_of_lt (hk b hb)] at hr
  exact hr

theorem radix_pass_eq_bucketed (w sh : Nat) (f : Int × Int → Int) (xs : List (Int × Int)) :
    radix_pass w sh f xs = bucketed (fun p => radixDigit w sh (f p)) (2^w) xs := by
  unfold radix_pass
  show (List.range xs.length).map
      (fun j => ((scatter (fun p => radixDigit w sh (f p)) xs
        (sumBelow (histogram (fun p => radixDigit w sh (f p)) xs (fun _ => 0)))
        (fun _ => none)).2 j).getD (0, 0)) = _
  have hcnt : (histogram (fun p => radixDigit w sh (f p)) xs (fun _ => 0)) =
      keyCount (fun p => radixDigit w sh (f p)) xs := by
    funext b
    rw [histogram_apply]
    omega
  rw [hcnt]
  exact scatter_read_getD _ (2^w) xs (fun _ => none) (0, 0)
    (fun p _ => radixDigit_lt w sh (f p))

theorem radix_pass_perm (w sh : Nat) (f : Int × Int → Int) (xs : List (Int × Int)) :
    (radix_pass w sh f xs).Perm xs := by
  rw [radix_pass_eq_bucketed]
  exact bucketed_perm _ (2^w) xs (fun p _ => radixDigit_lt w sh (f p))

theorem radix_pass_pairwise (w sh : Nat) (f : Int × Int → Int)
    (s : Int × Int → Int × Int → Prop) (xs : List (Int × Int))
    (hnn : ∀ p ∈ xs, 0 ≤ f p)
    (hprev : xs.Pairwise (radixRel f s (2^sh))) :
    (radix_pass w sh f xs).Pairwise (radixRel f s (2^(sh+w))) := by
  have hsplit : ∀ z : Nat, z % 2^(sh+w) = z % 2^sh + 2^sh * (z / 2^sh % 2^w) := by
    intro z
    rw [pow_add, Nat.mod_mul]
  rw [radix_pass_eq_bucketed]
  unfold bucketed
  apply pairwise_flatMap_buckets
  · intro b hb
    have hsub : (xs.filter (fun p => decide (radixDigit w sh (f p) = b))).Pairwise
        (radixRel f s (2^sh)) := hprev.sublist (List.filter_sublist xs)
    refine List.Pairwise.imp_of_mem ?_ hsub
    intro p q hp hq hr
    have hpx := List.mem_of_mem_filter hp
    have hqx := List.mem_of_mem_filter hq
    have hdp : radixDigit w sh (f p) = b := by simpa using (List.mem_filter.mp hp).2
    have hdq : radixDigit w sh (f q) = b := by simpa using (List.mem_filter.mp hq).2
    rw [radixDigit_nonneg w sh (f p) (hnn p hpx)] at hdp
    rw [radixDigit_nonneg w sh (f q) (hnn q hqx)] at hdq
    unfold radixRel at hr ⊢
    rw [hsplit ((f p).toNat), hsplit ((f q).toNat), hdp, hdq]
    rcases hr with hlt | ⟨heq, hs⟩
    · left
      omega
    · right
      exact ⟨by omega, hs⟩
  · intro b b' hbb hb' p hp q hq
    have hpx := List.mem_of_mem_filter hp
    have hqx := List.mem_of_mem_filter hq
    have hdp : radixDigit w sh (f p) = b := by simpa using (List.mem_filter.mp hp).2
    have hdq : radixDigit w sh (f q) = b' := by simpa using (List.mem_filter.mp hq).2
    rw [radixDigit_nonneg w sh (f p) (hnn p hpx)] at hdp
    rw [radixDigit_nonneg w sh (f q) (hnn q hqx)] at hdq
    have hplt : (f p).toNat % 2^sh < 2^sh := Nat.mod_lt _ (by positivity)
    unfold radixRel
    left
    rw [hsplit ((f p).toNat), hsplit ((f q).toNat), hdp, hdq]
    have : 2^sh * b + 2^sh ≤ 2^sh * b' := by
      have : b + 1 ≤ b' := hbb
      calc 2^sh * b + 2^sh = 2^sh * (b + 1) := by ring
        _ ≤ 2^sh * b' := Nat.mul_le_mul_left _ this
    omega

theorem int_tdiv_cast (m n : Nat) : (↑m : Int).tdiv ↑n = ↑(m / n) := rfl

theorem radix_loop_spec (w : Nat) (hw : 1 ≤ w) (f : Int × Int → Int)
    (s : Int × Int → Int × Int → Prop) (fuel : Nat) :
    ∀ (maxv : Int) (sh : Nat) (xs : List (Int × Int)),
      0 ≤ maxv →
      maxv.toNat < 2^fuel →
      (∀ p ∈ xs, 0 ≤ f p) →
      (∀ p ∈ xs, (f p).toNat / 2^sh ≤ maxv.toNat) →
      xs.Pairwise (radixRel f s (2^sh)) →
      (radix_loop w fuel maxv sh f xs).Perm xs ∧
      (radix_loop w fuel maxv sh f xs).Pairwise (radixRelTop f s) := by
  induction fuel with
  | zero =>
      intro maxv sh xs hm0 hmb hnn hkb hpw
      have hmz : maxv.toNat = 0 := by simpa using hmb
      refine ⟨by simp [radix_loop], ?_⟩
      show xs.Pairwise (radixRelTop f s)
      refine radixRel_to_top f s sh xs ?_ hpw
      intro p hp
      have := hkb p hp
      rw [hmz] at this
      have h2 : 0 < 2^sh := by positivity
      by_cases hlt : (f p).toNat < 2^sh
      · exact hlt
      · exact absurd (Nat.div_pos (le_of_not_lt hlt) h2) (by omega)
  | succ fuel ih =>
      intro maxv sh xs hm0 hmb hnn hkb hpw
      unfold radix_loop
      by_cases hz : maxv = 0
      · rw [if_pos hz]
        refine ⟨List.Perm.refl _, ?_⟩
        refine radixRel_to_top f s sh xs ?_ hpw
        intro p hp
        have := hkb p hp
        rw [hz] at this
        simp at this
        have h2 : 0 < 2^sh := by positivity
        by_cases hlt : (f p).toNat < 2^sh
        · exact hlt
        · exact absurd (Nat.div_pos (le_of_not_lt hlt) h2) (by omega)
      · rw [if_neg hz]
        have hpassperm := radix_pass_perm w sh f xs
        have hm0' : 0 ≤ maxv.tdiv (2^w) := by
          obtain ⟨n, rfl⟩ := Int.eq_ofNat_of_zero_le hm0
          rw [show ((2:Int)^w) = ((2^w : Nat) : Int) from by push_cast; ring, int_tdiv_cast]
          positivity
        have hmtd : (maxv.tdiv (2^w)).toNat = maxv.toNat / 2^w := by
          obtain ⟨n, rfl⟩ := Int.eq_ofNat_of_zero_le hm0
          rw [show ((2:Int)^w) = ((2^w : Nat) : Int) from by push_cast; ring, int_tdiv_cast]
          simp only [Int.toNat_natCast]
        have hmb' : (maxv.tdiv (2^w)).toNat < 2^fuel := by
          rw [hmtd]
          have h1 : maxv.toNat / 2^w ≤ maxv.toNat / 2 :=
            Nat.div_le_div_left (by
              calc (2 : Nat) = 2^1 := by norm_num
                _ ≤ 2^w := Nat.pow_le_pow_right (by norm_num) hw) (by norm_num)
          have h2 : maxv.toNat < 2 * 2^fuel := by
            calc maxv.toNat < 2^(fuel+1) := hmb
              _ = 2 * 2^fuel := by ring
          omega
        have hnn' : ∀ p ∈ radix_pass w sh f xs, 0 ≤ f p :=
          fun p hp => hnn p (hpassperm.mem_iff.mp hp)
        have hkb' : ∀ p ∈ radix_pass w sh f xs,
            (f p).toNat / 2^(sh+w) ≤ (maxv.tdiv (2^w)).toNat := by
          intro p hp
          rw [hmtd, pow_add, ← Nat.div_div_eq_div_mul]
          exact Nat.div_le_div_right (hkb p (hpassperm.mem_iff.mp hp))
        have hpw' := radix_pass_pairwise w sh f s xs hnn hpw
        obtain ⟨ihp, ihs⟩ := ih (maxv.tdiv (2^w)) (sh+w) (radix_pass w sh f xs)
          hm0' hmb' hnn' hkb' hpw'
        exact ⟨ihp.trans hpassperm, ihs⟩

theorem pairwise_always {β : Type} (R : β → β → Prop) (h : ∀ a b, R a b) :
    ∀ l : List β, l.Pairwise R := by
  intro l
  induction l with
  | nil => exact List.Pairwise.nil
  | cons a t ih => exact List.Pairwise.cons (fun b _ => h a b) ih

theorem radix_sort_pairs_correct (x : List (Int × Int)) (numBits : Nat)
    (hnb : 1 ≤ numBits) (hfst : ∀ p ∈ x, 0 ≤ p.1) :
    (radix_sort_pairs x numBits).Perm x ∧ (radix_sort_pairs x numBits).Pairwise pairLe := by
  simp only [radix_sort_pairs]
  obtain ⟨maxv0, hmaxv0⟩ : ∃ v, i64MaxScan (x.map Prod.snd) (x.getD 0 (0, 0)).2 = v := ⟨_, rfl⟩
  obtain ⟨minv0, hminv0⟩ : ∃ v, i64MinScan (x.map Prod.snd) (x.getD 0 (0, 0)).2 = v := ⟨_, rfl⟩
  rw [hmaxv0, hminv0]
  obtain ⟨m, hm⟩ : ∃ v, (0 : Int) - minv0 = v := ⟨_, rfl⟩
  rw [hm]
  obtain ⟨shifted, hshifted⟩ : ∃ l, x.map (fun p => (p.1, p.2 + m)) = l := ⟨_, rfl⟩
  rw [hshifted]
  obtain ⟨phase1, hphase1⟩ :
    ∃ l, radix_loop numBits ((maxv0 + m).natAbs + 1) (maxv0 + m) 0 Prod.snd shifted = l :=
    ⟨_, rfl⟩
  rw [hphase1]
  obtain ⟨maxv1, hmaxv1⟩ :
    ∃ v, i64MaxScan (phase1.map Prod.fst) (phase1.getD 0 (0, 0)).1 = v := ⟨_, rfl⟩
  rw [hmaxv1]
  obtain ⟨phase2, hphase2⟩ :
    ∃ l, radix_loop numBits (maxv1.natAbs + 1) maxv1 0 Prod.fst phase1 = l := ⟨_, rfl⟩
  rw [hphase2]
  obtain ⟨hmax0a, hmax0b⟩ := i64MaxScan_spec (x.map Prod.snd) (x.getD 0 (0, 0)).2
  obtain ⟨hmin0a, hmin0b⟩ := i64MinScan_spec (x.map Prod.snd) (x.getD 0 (0, 0)).2
  rw [hmaxv0] at hmax0a hmax0b
  rw [hminv0] at hmin0a hmin0b
  have hsec : ∀ p ∈ x, minv0 ≤ p.2 ∧ p.2 ≤ maxv0 := by
    intro p hp
    exact ⟨hmin0b p.2 (List.mem_map_of_mem _ hp), hmax0b p.2 (List.mem_map_of_mem _ hp)⟩
  have hsmem : ∀ q ∈ shifted, ∃ p ∈ x, q = (p.1, p.2 + m) := by
    intro q hq
    rw [← hshifted] at hq
    obtain ⟨p, hp, rfl⟩ := List.mem_map.mp hq
    exact ⟨p, hp, rfl⟩
  have hsnn : ∀ q ∈ shifted, 0 ≤ q.2 := by
    intro q hq
    obtain ⟨p, hp, rfl⟩ := hsmem q hq
    have h1 := (hsec p hp).1
    simp only []
    omega
  have hsfst : ∀ q ∈ shifted, 0 ≤ q.1 := by
    intro q hq
    obtain ⟨p, hp, rfl⟩ := hsmem q hq
    exact hfst p hp
  have hA : (0 : Int) ≤ maxv0 + m := by
    have := le_trans hmin0a hmax0a
    omega
  have hAfuel : (maxv0 + m).toNat < 2^((maxv0 + m).natAbs + 1) := by
    have h1 : (maxv0 + m).natAbs = (maxv0 + m).toNat := by omega
    rw [h1]
    calc (maxv0 + m).toNat < 2^((maxv0 + m).toNat) := Nat.lt_two_pow _
      _ ≤ 2^((maxv0 + m).toNat + 1) := Nat.pow_le_pow_right (by norm_num) (by omega)
  have hAkey : ∀ q ∈ shifted, (q.2).toNat / 2^0 ≤ (maxv0 + m).toNat := by
    intro q hq
    obtain ⟨p, hp, rfl⟩ := hsmem q hq
    have h1 := (hsec p hp).2
    simp only [pow_zero, Nat.div_one]
    omega
  have hApw : shifted.Pairwise (radixRel Prod.snd (fun _ _ => True) (2^0)) := by
    apply pairwise_always
    intro a b
    unfold radixRel
    right
    exact ⟨by omega, trivial⟩
  obtain ⟨p1perm, p1sort⟩ := radix_loop_spec numBits hnb Prod.snd (fun _ _ => True)
    ((maxv0 + m).natAbs + 1) (maxv0 + m) 0 shifted hA hAfuel hsnn hAkey hApw
  rw [hphase1] at p1perm p1sort
  have hp1mem : ∀ q ∈ phase1, q ∈ shifted := fun q hq => p1perm.mem_iff.mp hq
  have hp1fst : ∀ q ∈ phase1, 0 ≤ q.1 := fun q hq => hsfst q (hp1mem q hq)
  have hp1snn : ∀ q ∈ phase1, 0 ≤ q.2 := fun q hq => hsnn q (hp1mem q hq)
  obtain ⟨hmax1a, hmax1b⟩ := i64MaxScan_spec (phase1.map Prod.fst) (phase1.getD 0 (0, 0)).1
  rw [hmaxv1] at hmax1a hmax1b
  have hm1 : (0 : Int) ≤ maxv1 := by
    refine le_trans ?_ hmax1a
    rcases phase1 with _ | ⟨q0, t⟩
    · simp
    · exact hp1fst q0 (by simp)
  have hm1fuel : maxv1.toNat < 2^(maxv1.natAbs + 1) := by
    have h1 : maxv1.natAbs = maxv1.toNat := by omega
    rw [h1]
    calc maxv1.toNat < 2^(maxv1.toNat) := Nat.lt_two_pow _
      _ ≤ 2^(maxv1.toNat + 1) := Nat.pow_le_pow_right (by norm_num) (by omega)
  have hm1key : ∀ q ∈ phase1, (q.1).toNat / 2^0 ≤ maxv1.toNat := by
    intro q hq
    have h1 := hmax1b q.1 (List.mem_map_of_mem _ hq)
    simp only [pow_zero, Nat.div_one]
    omega
  have hp1pw : phase1.Pairwise (radixRel Prod.fst (fun a b => a.2 ≤ b.2) (2^0)) := by
    refine List.Pairwise.imp_of_mem ?_ p1sort
    intro a b ha hb hr
    unfold radixRelTop at hr
    unfold radixRel
    right
    refine ⟨by omega, ?_⟩
    have hna := hp1snn a ha
    have hnb' := hp1snn b hb
    rcases hr with h | ⟨h, _⟩ <;> omega
  obtain ⟨p2perm, p2sort⟩ := radix_loop_spec numBits hnb Prod.fst (fun a b => a.2 ≤ b.2)
    (maxv1.natAbs + 1) maxv1 0 phase1 hm1 hm1fuel hp1fst hm1key hp1pw
  rw [hphase2] at p2perm p2sort
  have hp2mem : ∀ q ∈ phase2, q ∈ phase1 := fun q hq => p2perm.mem_iff.mp hq
  constructor
  · have e1 : (shifted.map (fun p : Int × Int => (p.1, p.2 - m))) = x := by
      rw [← hshifted, List.map_map]
      have h1 : ∀ p ∈ x, ((fun p : Int × Int => (p.1, p.2 - m)) ∘
          (fun p : Int × Int => (p.1, p.2 + m))) p = id p := by
        intro p _
        simp only [Function.comp, id]
        exact Prod.ext rfl (by ring)
      rw [List.map_congr_left h1, List.map_id]
    have h2 : (phase2.map (fun p : Int × Int => (p.1, p.2 - m))).Perm
        (shifted.map (fun p : Int × Int => (p.1, p.2 - m))) :=
      List.Perm.map _ (p2perm.trans p1perm)
    rw [e1] at h2
    exact h2
  · rw [List.pairwise_map]
    refine List.Pairwise.imp_of_mem ?_ p2sort
    intro a b ha hb hr
    have hfa := hp1fst a (hp2mem a ha)
    have hfb := hp1fst b (hp2mem b hb)
    unfold radixRelTop at hr
    unfold pairLe
    simp only []
    rcases hr with h | ⟨h, h2⟩
    · left
      omega
    · right
      exact ⟨by omega, by omega⟩

/-- C1 (amended): `bucket_sort_pairs` rearranges every array of pairs into a
permutation that is ascending lexicographically by (first, second);
`radix_sort_pairs` does so provided `numBits ≥ 1` and every first element is
non-negative -- the second pass masks raw two's-complement digits of the
first elements without any shift, so negative first keys (and arrays whose
maximal first element is `0`) are not sorted, as the counterexample shows. -/
theorem bucket_and_radix_sort_pairs_sorted :
    (∀ array : List (Int × Int),
      (bucket_sort_pairs array).Perm array ∧ (bucket_sort_pairs array).Pairwise pairLe) ∧
    (∀ (x : List (Int × Int)) (numBits : Nat), 1 ≤ numBits → (∀ p ∈ x, 0 ≤ p.1) →
      (radix_sort_pairs x numBits).Perm x ∧ (radix_sort_pairs x numBits).Pairwise pairLe) :=
  ⟨bucket_sort_pairs_correct, radix_sort_pairs_correct⟩

/-- C1 (counterexample): on `[(0,0), (-1,0)]` with `numBits = 4` both digit
loops exit immediately (all shifted seconds are `0`, and the maximum first
element is `0`), so `radix_sort_pairs` returns the array unchanged -- which is
not ascending lexicographically by (first, second): `(-1, 0)` should come
first. -/
theorem radix_sort_pairs_counterexample :
    radix_sort_pairs [(0, 0), (-1, 0)] 4 = [(0, 0), (-1, 0)] ∧
    ¬ (radix_sort_pairs [(0, 0), (-1, 0)] 4).Pairwise pairLe := by
  constructor
  · decide
  · decide

/-- Witness for `bucket_and_radix_sort_pairs_sorted` on the spec's example
`[(3,9), (1,5), (3,2)]`, which both sorts turn into `[(1,5), (3,2), (3,9)]`. -/
theorem bucket_and_radix_sort_pairs_sorted_witness :
    ((1 : Nat) ≤ 2 ∧ ∀ p ∈ ([(3, 9), (1, 5), (3, 2)] : List (Int × Int)), 0 ≤ p.1) ∧
    ((bucket_sort_pairs [(3, 9), (1, 5), (3, 2)]).Perm [(3, 9), (1, 5), (3, 2)] ∧
      (bucket_sort_pairs [(3, 9), (1, 5), (3, 2)]).Pairwise pairLe) ∧
    ((radix_sort_pairs [(3, 9), (1, 5), (3, 2)] 2).Perm [(3, 9), (1, 5), (3, 2)] ∧
      (radix_sort_pairs [(3, 9), (1, 5), (3, 2)] 2).Pairwise pairLe) ∧
    bucket_sort_pairs [(3, 9), (1, 5), (3, 2)] = [(1, 5), (3, 2), (3, 9)] ∧
    radix_sort_pairs [(3, 9), (1, 5), (3, 2)] 2 = [(1, 5), (3, 2), (3, 9)] :=
  ⟨⟨by decide, by decide⟩,
    bucket_and_radix_sort_pairs_sorted.1 [(3, 9), (1, 5), (3, 2)],
    bucket_and_radix_sort_pairs_sorted.2 [(3, 9), (1, 5), (3, 2)] 2 (by decide) (by decide),
    by decide, by decide⟩

/-! ## `stinger_to_sorted_csr` (stinger_utils.c lines 440-481),
`copy_metadata_based_on_pointer_array` (lines 406-418)

After `stinger_to_unsorted_csr` has produced the offset array `off`, the
neighbor array `ind` and the metadata arrays, the per-vertex loop builds an
array of pointers into vertex `v`'s slice `ind[off v, off (v+1))`, `qsort`s
the pointers with `csr_cmp` (the truncated-difference comparator above),
copies the pointed-to values back into the slice, and permutes each requested
metadata array through `copy_metadata_based_on_pointer_array`, which reads
`metadata[offset + (pointers[i] - base)]` -- i.e. the metadata entry of the
slot the `i`-th pointer originally addressed.  The unsorted CSR input is
abstract here (it reads the graph store, whose core is outside this
repository), so the model takes `off`, `ind` and a metadata array `md` as
inputs; a pointer is its index into the slice, and `qsort` is
`List.insertionSort` with the comparator `csr_cmp` itself. -/

/-- The sorted pointer array of lines 452-462: indices `0..degree` ordered by
`qsort(pointers, degree, sizeof(int64_t *), csr_cmp)` on the pointed-to
neighbor values. -/
def csr_pointers (slice : List Int) : List Nat :=
  List.insertionSort (fun i j => csr_cmp (slice.getD i 0) (slice.getD j 0) ≤ 0)
    (List.range slice.length)

/-- `copy_metadata_based_on_pointer_array` (lines 406-418): gather the
metadata entries addressed by the sorted pointers into a buffer, then write
the buffer back over the slice. -/
def copy_metadata_based_on_pointer_array (pointers : List Nat) (metadata : List Int) :
    List Int :=
  pointers.map (fun j => metadata.getD j 0)

/-- Lines 464-471: the vertex slice of `ind` after the pointed-to values are
copied back in pointer order. -/
def stinger_to_sorted_csr_slice (slice : List Int) : List Int :=
  (csr_pointers slice).map (fun j => slice.getD j 0)

/-- The whole `ind` array after `stinger_to_sorted_csr`: every vertex slice
`[off v, off (v+1))` sorted in place (the loop bodies touch disjoint
slices). -/
def stinger_to_sorted_csr_ind (nv : Nat) (off : Nat → Nat) (ind : List Int) : List Int :=
  (List.range nv).flatMap
    (fun v => stinger_to_sorted_csr_slice ((ind.drop (off v)).take (off (v+1) - off v)))

/-- A metadata array after `stinger_to_sorted_csr`: every vertex slice
permuted by that vertex sort's pointer array (line 473-476). -/
def stinger_to_sorted_csr_meta (nv : Nat) (off : Nat → Nat) (ind md : List Int) : List Int :=
  (List.range nv).flatMap
    (fun v => copy_metadata_based_on_pointer_array
      (csr_pointers ((ind.drop (off v)).take (off (v+1) - off v)))
      ((md.drop (off v)).take (off (v+1) - off v)))

theorem csr_cmp_exact {a b : Int} (ha0 : 0 ≤ a) (ha1 : a < 2^31) (hb0 : 0 ≤ b)
    (hb1 : b < 2^31) : csr_cmp a b = a - b := by
  unfold csr_cmp wrap64 wrap32
  omega

theorem csr_pointers_perm (s : List Int) : (csr_pointers s).Perm (List.range s.length) :=
  List.perm_insertionSort _ _

theorem csr_pointers_length (s : List Int) : (csr_pointers s).length = s.length := by
  rw [(csr_pointers_perm s).length_eq, List.length_range]

theorem stinger_to_sorted_csr_slice_length (s : List Int) :
    (stinger_to_sorted_csr_slice s).length = s.length := by
  rw [stinger_to_sorted_csr_slice, List.length_map, csr_pointers_length]

theorem copy_metadata_length (p : List Nat) (m : List Int) :
    (copy_metadata_based_on_pointer_array p m).length = p.length := by
  rw [copy_metadata_based_on_pointer_array, List.length_map]

theorem stinger_to_sorted_csr_slice_sorted (s : List Int)
    (hs : ∀ a ∈ s, 0 ≤ a ∧ a < 2^31) :
    (stinger_to_sorted_csr_slice s).Pairwise (· ≤ ·) := by
  have hget : ∀ i : Nat, 0 ≤ s.getD i 0 ∧ s.getD i 0 < 2^31 := by
    intro i
    by_cases hi : i < s.length
    · rw [List.getD_eq_getElem?_getD, List.getElem?_eq_getElem hi]
      exact hs _ (List.getElem_mem hi)
    · rw [List.getD_eq_default _ _ (by omega)]
      norm_num
  have hcmp : ∀ i j : Nat,
      (csr_cmp (s.getD i 0) (s.getD j 0) ≤ 0) ↔ s.getD i 0 ≤ s.getD j 0 := by
    intro i j
    rw [csr_cmp_exact (hget i).1 (hget i).2 (hget j).1 (hget j).2]
    omega
  haveI : IsTotal Nat (fun i j => csr_cmp (s.getD i 0) (s.getD j 0) ≤ 0) := by
    constructor
    intro i j
    simp only [hcmp]
    exact le_total _ _
  haveI : IsTrans Nat (fun i j => csr_cmp (s.getD i 0) (s.getD j 0) ≤ 0) := by
    constructor
    intro a b c hab hbc
    simp only [hcmp] at hab hbc ⊢
    exact le_trans hab hbc
  have hsorted := List.sorted_insertionSort
    (fun i j => csr_cmp (s.getD i 0) (s.getD j 0) ≤ 0) (List.range s.length)
  rw [stinger_to_sorted_csr_slice]
  refine List.pairwise_map.mpr ?_
  exact hsorted.imp (fun {i j} hij => (hcmp i j).mp hij)

theorem off_mono_le (off : Nat → Nat) (nv : Nat)
    (hm : ∀ u, u < nv → off u ≤ off (u+1)) {a b : Nat} (h1 : a ≤ b) (h2 : b ≤ nv) :
    off a ≤ off b := by
  induction b with
  | zero =>
      have : a = 0 := by omega
      subst this
      exact le_refl _
  | succ b ih =>
      rcases Nat.eq_or_lt_of_le h1 with rfl | hlt
      · exact le_refl _
      · exact le_trans (ih (by omega) (by omega)) (hm b (by omega))

theorem off_sum_eq (off : Nat → Nat) (v : Nat) (h0 : off 0 = 0)
    (hm : ∀ u, u < v → off u ≤ off (u+1)) :
    ((List.range v).map (fun u => off (u+1) - off u)).sum = off v := by
  induction v with
  | zero => simpa using h0.symm
  | succ v ih =>
      rw [List.range_succ, List.map_append, List.sum_append,
        ih (fun u hu => hm u (by omega))]
      have hv := hm v (by omega)
      simp only [List.map_cons, List.map_nil, List.sum_cons, List.sum_nil]
      omega

theorem flatMap_segment {α : Type} (g : Nat → List α) (off : Nat → Nat) (nv : Nat)
    (h0 : off 0 = 0) (hm : ∀ u, u < nv → off u ≤ off (u+1))
    (hlen : ∀ u, u < nv → (g u).length = off (u+1) - off u)
    (v : Nat) (hv : v < nv) :
    (((List.range nv).flatMap g).drop (off v)).take (off (v+1) - off v) = g v := by
  have hsplit : List.range nv = List.range v ++ List.range' v (nv - v) := by
    rw [List.range_eq_range', List.range_eq_range']
    have h := List.range'_append 0 v (nv - v) 1
    simp only [Nat.zero_add, Nat.one_mul] at h
    rw [show nv - v + v = nv from by omega] at h
    exact h.symm
  have hAlen : (((List.range v).flatMap g)).length = off v := by
    rw [List.length_flatMap]
    have hc : List.map (List.length ∘ g) (List.range v) =
        List.map (fun u => off (u+1) - off u) (List.range v) :=
      List.map_congr_left (fun u hu => hlen u (lt_of_lt_of_le (List.mem_range.mp hu)
        (le_of_lt hv)))
    rw [hc]
    exact off_sum_eq off v h0 (fun u hu => hm u (by omega))
  have hdrop : ((List.range nv).flatMap g).drop (off v) =
      (List.range' v (nv - v)).flatMap g := by
    rw [hsplit, List.flatMap_append, ← hAlen, List.drop_left]
  rw [hdrop, show nv - v = (nv - v - 1) + 1 from by omega, List.range'_succ,
    List.flatMap_cons, ← hlen v hv, List.take_left]

theorem slice_length (ind : List Int) (off : Nat → Nat) (u : Nat)
    (hub : off (u+1) ≤ ind.length) (hmu : off u ≤ off (u+1)) :
    ((ind.drop (off u)).take (off (u+1) - off u)).length = off (u+1) - off u := by
  rw [List.length_take, List.length_drop]
  omega

/-- C2 (amended): for every abstract unsorted CSR (monotone offsets covering
`ind`, aligned metadata) and every vertex `v < nv`, the slice
`[off v, off (v+1))` of the results is the input slice gathered through one
pointer permutation shared by `ind` and the metadata array -- so the metadata
value at position `i` is the one that originally accompanied the neighbor now
at `ind[i]` (this half is unconditional); and the `ind` slice is
non-decreasing provided the neighbor ids fit in 31 bits, so that the `int`
return of `csr_cmp` does not truncate the 64-bit difference -- without that
bound the comparator misorders, as the counterexample shows. -/
theorem stinger_to_sorted_csr_spec (nv : Nat) (off : Nat → Nat) (ind md : List Int)
    (h0 : off 0 = 0) (hm : ∀ u, u < nv → off u ≤ off (u+1)) (htop : off nv = ind.length)
    (hmd : md.length = ind.length) (v : Nat) (hv : v < nv) :
    ∃ ptrs : List Nat,
      ptrs.Perm (List.range (off (v+1) - off v)) ∧
      (((stinger_to_sorted_csr_ind nv off ind).drop (off v)).take (off (v+1) - off v)) =
        ptrs.map (fun j => ((ind.drop (off v)).take (off (v+1) - off v)).getD j 0) ∧
      (((stinger_to_sorted_csr_meta nv off ind md).drop (off v)).take
          (off (v+1) - off v)) =
        ptrs.map (fun j => ((md.drop (off v)).take (off (v+1) - off v)).getD j 0) ∧
      ((∀ a ∈ ind, 0 ≤ a ∧ a < 2^31) →
        ((((stinger_to_sorted_csr_ind nv off ind).drop (off v)).take
          (off (v+1) - off v))).Pairwise (· ≤ ·)) := by
  have hub : ∀ u, u < nv → off (u+1) ≤ ind.length := by
    intro u hu
    rw [← htop]
    exact off_mono_le off nv hm (by omega) (le_refl _)
  have hslen : ∀ u, u < nv →
      ((ind.drop (off u)).take (off (u+1) - off u)).length = off (u+1) - off u :=
    fun u hu => slice_length ind off u (hub u hu) (hm u hu)
  have hmlen : ∀ u, u < nv →
      ((md.drop (off u)).take (off (u+1) - off u)).length = off (u+1) - off u := by
    intro u hu
    rw [List.length_take, List.length_drop, hmd]
    have := hub u hu
    have := hm u hu
    omega
  have hseg1 := flatMap_segment
    (fun u => stinger_to_sorted_csr_slice ((ind.drop (off u)).take (off (u+1) - off u)))
    off nv h0 hm
    (fun u hu => by rw [stinger_to_sorted_csr_slice_length]; exact hslen u hu) v hv
  have hseg2 := flatMap_segment
    (fun u => copy_metadata_based_on_pointer_array
      (csr_pointers ((ind.drop (off u)).take (off (u+1) - off u)))
      ((md.drop (off u)).take (off (u+1) - off u)))
    off nv h0 hm
    (fun u hu => by rw [copy_metadata_length, csr_pointers_length]; exact hslen u hu) v hv
  refine ⟨csr_pointers ((ind.drop (off v)).take (off (v+1) - off v)), ?_, ?_, ?_, ?_⟩
  · have := csr_pointers_perm ((ind.drop (off v)).take (off (v+1) - off v))
    rwa [hslen v hv] at this
  · rw [stinger_to_sorted_csr_ind, hseg1]
    rfl
  · rw [stinger_to_sorted_csr_meta, hseg2]
    rfl
  · intro hrange
    rw [stinger_to_sorted_csr_ind, hseg1]
    exact stinger_to_sorted_csr_slice_sorted _
      (fun a ha => hrange a (List.mem_of_mem_drop (List.mem_of_mem_take ha)))

/-- C2 (counterexample): a vertex whose slice holds neighbors `[1, 2^32]`.
`csr_cmp 1 (2^32)` truncates the difference `1 - 2^32` to the `int` value `1`,
so the sort swaps the two entries and returns the slice `[2^32, 1]`, which is
not non-decreasing. -/
theorem stinger_to_sorted_csr_counterexample :
    stinger_to_sorted_csr_ind 1 (fun v => if v = 0 then 0 else 2) [1, 2^32] =
      [2^32, 1] ∧
    ¬ (stinger_to_sorted_csr_ind 1 (fun v => if v = 0 then 0 else 2)
        [1, 2^32]).Pairwise (· ≤ · : Int → Int → Prop) := by
  constructor
  · decide
  · decide

/-- Witness for `stinger_to_sorted_csr_spec`: `nv = 2`, offsets `[0, 2, 3]`,
`ind = [5, 3, 7]`, metadata `[50, 30, 70]`, at vertex `0`. -/
theorem stinger_to_sorted_csr_spec_witness :
    ((fun v : Nat => if v = 0 then 0 else if v = 1 then 2 else 3) 0 = 0 ∧
      (∀ u, u < 2 → (fun v : Nat => if v = 0 then 0 else if v = 1 then 2 else 3) u ≤
        (fun v : Nat => if v = 0 then 0 else if v = 1 then 2 else 3) (u+1)) ∧
      (fun v : Nat => if v = 0 then 0 else if v = 1 then 2 else 3) 2 =
        ([5, 3, 7] : List Int).length ∧
      ([50, 30, 70] : List Int).length = ([5, 3, 7] : List Int).length ∧ 0 < 2) ∧
    (∃ ptrs : List Nat,
      ptrs.Perm (List.range 2) ∧
      ((stinger_to_sorted_csr_ind 2
          (fun v => if v = 0 then 0 else if v = 1 then 2 else 3) [5, 3, 7]).drop 0).take 2 =
        ptrs.map (fun j => (([5, 3, 7] : List Int).drop 0 |>.take 2).getD j 0) ∧
      ((stinger_to_sorted_csr_meta 2
          (fun v => if v = 0 then 0 else if v = 1 then 2 else 3) [5, 3, 7]
          [50, 30, 70]).drop 0).take 2 =
        ptrs.map (fun j => (([50, 30, 70] : List Int).drop 0 |>.take 2).getD j 0) ∧
      ((∀ a ∈ ([5, 3, 7] : List Int), 0 ≤ a ∧ a < 2^31) →
        (((stinger_to_sorted_csr_ind 2
          (fun v => if v = 0 then 0 else if v = 1 then 2 else 3) [5, 3, 7]).drop 0).take
            2).Pairwise (· ≤ ·))) :=
  ⟨⟨rfl, by decide, by decide, by decide, by decide⟩,
    stinger_to_sorted_csr_spec 2 (fun v => if v = 0 then 0 else if v = 1 then 2 else 3)
      [5, 3, 7] [50, 30, 70] rfl (by decide) (by decide) (by decide) 0 (by decide)⟩

/-! ## `stinger_sort_edge_list` (stinger_utils.c lines 765-864)

The compaction pass of a single (vertex, type) chain.  The edge-block pool is
part of stinger_core, which is not in this repository, so the chain is
modelled from the spec as the list of its edge slots in slot order
(`struct stinger_edge`: neighbor, weight, timeFirst, timeRecent), and
`stinger_eb_is_blank` as "negative neighbor" (a tombstone is `-1`; spec
section 3).  Lines 784-803 compare slots `i, i+1` for odd `i` inside each
block and the block boundary slot pair; lines 807-830 do the same for even
`i`.  For an even `STINGER_EDGEBLOCKSIZE` these two loops are exactly the
odd and even phases of odd-even transposition sort on the concatenated slot
array, swapping whole edges whenever `edges[i].neighbor >
edges[i+1].neighbor`, and the `sorted` flag repeats both phases until no swap
occurs.  The loop is modelled with fuel; `invCount` (the number of inverted
pairs) strictly decreases whenever a phase swaps, so fuel `invCount + 1`
never runs out.  Lines 834-863 then walk each block: a non-blank slot that is
all zero is coerced to a `-1` tombstone, and the survivors feed the cached
`high` (`curHigh + 1`), `numEdges`, `smallStamp` (minimum `timeFirst`,
starting from `INT64_MAX`) and `largeStamp` (maximum `timeRecent`, starting
from `INT64_MIN`). -/

structure stinger_edge where
  neighbor : Int
  weight : Int
  timeFirst : Int
  timeRecent : Int
deriving DecidableEq

instance : Inhabited stinger_edge := ⟨⟨0, 0, 0, 0⟩⟩

/-- Modelled from the spec: a blank slot is one whose neighbor is negative
(tombstone `-1` or never-used). -/
def stinger_eb_is_blank (e : stinger_edge) : Bool := e.neighbor < 0

/-- One even phase (lines 807-830): compare and swap slot pairs `(0,1)`,
`(2,3)`, ... across the whole chain; the Bool is the surviving `sorted`
flag contribution (false iff some swap happened). -/
def evenPass : List stinger_edge → List stinger_edge × Bool
  | a :: b :: t =>
      if a.neighbor > b.neighbor then (b :: a :: (evenPass t).1, false)
      else (a :: b :: (evenPass t).1, (evenPass t).2)
  | l => (l, true)

/-- One odd phase (lines 784-803): slot pairs `(1,2)`, `(3,4)`, ... -/
def oddPass : List stinger_edge → List stinger_edge × Bool
  | a :: t => (a :: (evenPass t).1, (evenPass t).2)
  | [] => ([], true)

/-- The `while (!sorted)` loop of lines 779-831: an odd phase then an even
phase, repeated until neither swaps.  `fuel` makes the recursion structural;
the callers pass `invCount chain + 1`, which is never exhausted. -/
def sortLoop : Nat → List stinger_edge → List stinger_edge
  | 0, l => l
  | fuel + 1, l =>
      if (oddPass l).2 && (evenPass (oddPass l).1).2 then (evenPass (oddPass l).1).1
      else sortLoop fuel (evenPass (oddPass l).1).1

/-- Number of inverted slot pairs (by neighbor id) -- the termination measure
of the odd/even loop. -/
def invCount : List stinger_edge → Nat
  | [] => 0
  | a :: t => t.countP (fun b => decide (b.neighbor < a.neighbor)) + invCount t

/-- Induction in steps of two list elements, used for the phase lemmas. -/
theorem list_two_step {α : Type} {motive : List α → Prop} (h0 : motive [])
    (h1 : ∀ a, motive [a]) (h2 : ∀ a b t, motive t → motive (a :: b :: t))
    (l : List α) : motive l := by
  have key : ∀ n (l : List α), l.length ≤ n → motive l := by
    intro n
    induction n with
    | zero =>
        intro l hl
        have he : l = [] := List.eq_nil_of_length_eq_zero (by omega)
        rwa [he]
    | succ n ih =>
        intro l hl
        rcases l with _ | ⟨a, _ | ⟨b, t⟩⟩
        · exact h0
        · exact h1 a
        · refine h2 a b t (ih t ?_)
          simp only [List.length_cons] at hl
          omega
  exact key l.length l (le_refl _)

theorem evenPass_perm (l : List stinger_edge) : (evenPass l).1.Perm l := by
  induction l using list_two_step with
  | h0 => simp [evenPass]
  | h1 a => simp [evenPass]
  | h2 a b t ih =>
      simp only [evenPass]
      split_ifs with hc
      · exact ((ih.cons a).cons b).trans (List.Perm.swap a b t)
      · exact (ih.cons b).cons a

theorem evenPass_true_fix (l : List stinger_edge) (h : (evenPass l).2 = true) :
    (evenPass l).1 = l := by
  induction l using list_two_step with
  | h0 => rfl
  | h1 a => rfl
  | h2 a b t ih =>
      simp only [evenPass] at h ⊢
      split_ifs with hc
      · rw [if_pos hc] at h
        exact absurd h (by simp)
      · rw [if_neg hc] at h
        rw [ih h]

theorem evenPass_countP (l : List stinger_edge) (p : stinger_edge → Bool) :
    (evenPass l).1.countP p = l.countP p :=
  (evenPass_perm l).countP_eq p

theorem evenPass_invCount (l : List stinger_edge) :
    invCount (evenPass l).1 ≤ invCount l ∧
    ((evenPass l).2 = false → invCount (evenPass l).1 < invCount l) := by
  induction l using list_two_step with
  | h0 => simp [evenPass]
  | h1 a => simp [evenPass]
  | h2 a b t ih =>
      simp only [evenPass]
      split_ifs with hc
      · have key : invCount (b :: a :: (evenPass t).1) < invCount (a :: b :: t) := by
          simp only [invCount, List.countP_cons, evenPass_countP]
          have hab : (decide (a.neighbor < b.neighbor)) = false := by
            simp only [decide_eq_false_iff_not]
            omega
          have hba : (decide (b.neighbor < a.neighbor)) = true := by
            simp only [decide_eq_true_eq]
            omega
          rw [hab, hba, show (if false = true then (1:Nat) else 0) = 0 from rfl,
            show (if true = true then (1:Nat) else 0) = 1 from rfl]
          have := ih.1
          omega
        exact ⟨le_of_lt key, fun _ => key⟩
      · constructor
        · show invCount (a :: b :: (evenPass t).1) ≤ invCount (a :: b :: t)
          simp only [invCount, List.countP_cons, evenPass_countP]
          have := ih.1
          omega
        · intro hf
          show invCount (a :: b :: (evenPass t).1) < invCount (a :: b :: t)
          simp only [invCount, List.countP_cons, evenPass_countP]
          have := ih.2 hf
          omega

theorem oddPass_perm (l : List stinger_edge) : (oddPass l).1.Perm l := by
  cases l with
  | nil => simp [oddPass]
  | cons a t =>
      simp only [oddPass]
      exact (evenPass_perm t).cons a

theorem oddPass_snd (l : List stinger_edge) : (oddPass l).2 = (evenPass l.tail).2 := by
  cases l with
  | nil => rfl
  | cons a t => rfl

theorem oddPass_true_fix (l : List stinger_edge) (h : (oddPass l).2 = true) :
    (oddPass l).1 = l := by
  cases l with
  | nil => rfl
  | cons a t =>
      simp only [oddPass] at h ⊢
      rw [evenPass_true_fix t h]

theorem oddPass_invCount (l : List stinger_edge) :
    invCount (oddPass l).1 ≤ invCount l ∧
    ((oddPass l).2 = false → invCount (oddPass l).1 < invCount l) := by
  cases l with
  | nil => simp [oddPass]
  | cons a t =>
      simp only [oddPass, invCount, evenPass_countP]
      have h1 := (evenPass_invCount t).1
      have h2 := (evenPass_invCount t).2
      constructor
      · omega
      · intro hf
        have := h2 hf
        omega

theorem passes_clean_sorted : ∀ n (l : List stinger_edge), l.length ≤ n →
    (evenPass l).2 = true → (evenPass l.tail).2 = true →
    List.Chain' (fun a b => a.neighbor ≤ b.neighbor) l := by
  intro n
  induction n with
  | zero =>
      intro l hl _ _
      have he : l = [] := List.eq_nil_of_length_eq_zero (by omega)
      rw [he]
      exact List.chain'_nil
  | succ n ih =>
      intro l hl h1 h2
      rcases l with _ | ⟨a, _ | ⟨b, t⟩⟩
      · exact List.chain'_nil
      · exact List.chain'_singleton a
      · rw [List.chain'_cons]
        have hcond : ¬ (a.neighbor > b.neighbor) ∧ (evenPass t).2 = true := by
          by_cases hc : a.neighbor > b.neighbor
          · rw [show (evenPass (a :: b :: t)).2 =
                (if a.neighbor > b.neighbor then
                  ((b :: a :: (evenPass t).1 : List stinger_edge), false)
                 else ((a :: b :: (evenPass t).1 : List stinger_edge),
                  (evenPass t).2)).2 from rfl, if_pos hc] at h1
            exact absurd h1 (by simp)
          · refine ⟨hc, ?_⟩
            rw [show (evenPass (a :: b :: t)).2 =
                (if a.neighbor > b.neighbor then
                  ((b :: a :: (evenPass t).1 : List stinger_edge), false)
                 else ((a :: b :: (evenPass t).1 : List stinger_edge),
                  (evenPass t).2)).2 from rfl, if_neg hc] at h1
            exact h1
        refine ⟨by omega, ?_⟩
        refine ih (b :: t) ?_ h2 ?_
        · simp only [List.length_cons] at hl ⊢
          omega
        · simpa using hcond.2

theorem sortLoop_spec : ∀ fuel (l : List stinger_edge), invCount l < fuel →
    (sortLoop fuel l).Perm l ∧
    List.Chain' (fun a b => a.neighbor ≤ b.neighbor) (sortLoop fuel l) := by
  intro fuel
  induction fuel with
  | zero => intro l h; omega
  | succ fuel ih =>
      intro l h
      simp only [sortLoop]
      by_cases hs : ((oddPass l).2 && (evenPass (oddPass l).1).2) = true
      · rw [if_pos hs]
        have hs1 : (oddPass l).2 = true := by
          cases hx : (oddPass l).2
          · rw [hx] at hs
            simp at hs
          · rfl
        have hs2 : (evenPass (oddPass l).1).2 = true := by
          cases hx : (evenPass (oddPass l).1).2
          · rw [hx] at hs
            simp at hs
          · rfl
        have hfix1 : (oddPass l).1 = l := oddPass_true_fix l hs1
        rw [hfix1] at hs2 ⊢
        have hfix2 : (evenPass l).1 = l := evenPass_true_fix l hs2
        rw [hfix2]
        refine ⟨List.Perm.refl l, ?_⟩
        refine passes_clean_sorted l.length l (le_refl _) hs2 ?_
        rw [← oddPass_snd]
        exact hs1
      · rw [if_neg hs]
        have hdec : invCount (evenPass (oddPass l).1).1 < invCount l := by
          by_cases h1 : (oddPass l).2 = true
          · have h2 : (evenPass (oddPass l).1).2 = false := by
              cases hx : (evenPass (oddPass l).1).2
              · rfl
              · exfalso
                apply hs
                rw [h1, hx]
                rfl
            have ha := (oddPass_invCount l).1
            have hb := (evenPass_invCount (oddPass l).1).2 h2
            have hfix : (oddPass l).1 = l := oddPass_true_fix l h1
            rw [hfix] at hb ⊢
            omega
          · have h1' : (oddPass l).2 = false := by
              cases hx : (oddPass l).2
              · rfl
              · exact absurd hx h1
            have ha := (oddPass_invCount l).2 h1'
            have hb := (evenPass_invCount (oddPass l).1).1
            omega
        obtain ⟨hperm, hchain⟩ := ih (evenPass (oddPass l).1).1 (by omega)
        refine ⟨hperm.trans ((evenPass_perm _).trans (oddPass_perm l)), hchain⟩

/-- `INT64_MAX`, the initial value of `curSmallTS` (line 837). -/
def INT64_MAX : Int := 2^63 - 1
/-- `INT64_MIN`, the initial value of `curLargeTS` (line 836). -/
def INT64_MIN : Int := -(2^63)

/-- The cached per-block summary fields recomputed at lines 856-859. -/
structure blockMeta where
  high : Int
  numEdges : Int
  smallStamp : Int
  largeStamp : Int
deriving DecidableEq

/-- Lines 841-847: a non-blank slot that is all zero (a dead slot left by an
edge removal) gets its neighbor coerced to the `-1` tombstone; any other slot
is untouched. -/
def coerceSlot (e : stinger_edge) : stinger_edge :=
  if stinger_eb_is_blank e = false ∧ e.neighbor = 0 ∧ e.weight = 0 ∧
      e.timeFirst = 0 ∧ e.timeRecent = 0 then
    { e with neighbor := -1 }
  else e

/-- A slot that the recompute loop counts as an edge: non-blank and not
all-zero (lines 840-855). -/
def liveSlot (e : stinger_edge) : Bool :=
  !(stinger_eb_is_blank e) && !(decide (e.neighbor = 0 ∧ e.weight = 0 ∧
    e.timeFirst = 0 ∧ e.timeRecent = 0))

/-- The accumulator update for one live slot (lines 848-854): bump
`numEdges`, track the highest occupied index and the extreme stamps. -/
def stepMeta (e : stinger_edge) (i : Nat) (m : blockMeta) : blockMeta :=
  { high := if (i : Int) > m.high then (i : Int) else m.high,
    numEdges := m.numEdges + 1,
    smallStamp := if e.timeFirst < m.smallStamp then e.timeFirst else m.smallStamp,
    largeStamp := if e.timeRecent > m.largeStamp then e.timeRecent else m.largeStamp }

/-- The per-block recompute loop of lines 839-855 over the slots of one
block, carrying the slot index and the accumulator; returns the rewritten
slots and the final accumulator. -/
def recomputeScan : List stinger_edge → Nat → blockMeta → List stinger_edge × blockMeta
  | [], _, m => ([], m)
  | e :: t, i, m =>
      if stinger_eb_is_blank e = false then
        if e.neighbor = 0 ∧ e.weight = 0 ∧ e.timeFirst = 0 ∧ e.timeRecent = 0 then
          ({ e with neighbor := -1 } :: (recomputeScan t (i+1) m).1,
            (recomputeScan t (i+1) m).2)
        else
          (e :: (recomputeScan t (i+1) (stepMeta e i m)).1,
            (recomputeScan t (i+1) (stepMeta e i m)).2)
      else
        (e :: (recomputeScan t (i+1) m).1, (recomputeScan t (i+1) m).2)

/-- Lines 834-860 for one block: run the scan from the C initial accumulator
and store `curHigh + 1` as the cached `high`. -/
def recomputeBlock (b : List stinger_edge) : List stinger_edge × blockMeta :=
  ((recomputeScan b 0 ⟨0, 0, INT64_MAX, INT64_MIN⟩).1,
    { high := (recomputeScan b 0 ⟨0, 0, INT64_MAX, INT64_MIN⟩).2.high + 1,
      numEdges := (recomputeScan b 0 ⟨0, 0, INT64_MAX, INT64_MIN⟩).2.numEdges,
      smallStamp := (recomputeScan b 0 ⟨0, 0, INT64_MAX, INT64_MIN⟩).2.smallStamp,
      largeStamp := (recomputeScan b 0 ⟨0, 0, INT64_MAX, INT64_MIN⟩).2.largeStamp })

/-- Split the chain into consecutive blocks of `bsz` slots (fuel-structural;
callers pass the list length, which suffices). -/
def toBlocksGo (bsz : Nat) : Nat → List stinger_edge → List (List stinger_edge)
  | _, [] => []
  | 0, l => [l]
  | fuel + 1, l => l.take bsz :: toBlocksGo bsz fuel (l.drop bsz)

/-- The chain as its list of `STINGER_EDGEBLOCKSIZE`-slot blocks. -/
def toBlocks (bsz : Nat) (l : List stinger_edge) : List (List stinger_edge) :=
  toBlocksGo bsz l.length l

/-- `stinger_sort_edge_list` (lines 765-864): run the odd/even loop over the
whole chain, then recompute every block; returns each block's rewritten
slots paired with its recomputed summary. -/
def stinger_sort_edge_list (bsz : Nat) (chain : List stinger_edge) :
    List (List stinger_edge × blockMeta) :=
  (toBlocks bsz (sortLoop (invCount chain + 1) chain)).map recomputeBlock

theorem toBlocksGo_flatten (bsz : Nat) : ∀ fuel (l : List stinger_edge),
    (toBlocksGo bsz fuel l).flatten = l := by
  intro fuel
  induction fuel with
  | zero =>
      intro l
      cases l with
      | nil => rfl
      | cons a t => simp [toBlocksGo]
  | succ fuel ih =>
      intro l
      cases l with
      | nil => rfl
      | cons a t =>
          show ((a :: t).take bsz :: toBlocksGo bsz fuel ((a :: t).drop bsz)).flatten =
            a :: t
          rw [List.flatten_cons, ih]
          exact List.take_append_drop bsz (a :: t)

theorem toBlocksGo_mem (bsz : Nat) : ∀ fuel (l : List stinger_edge)
    (b : List stinger_edge), l.length ≤ fuel → 1 ≤ bsz → b ∈ toBlocksGo bsz fuel l →
    b.length ≤ bsz ∧ ∀ e ∈ b, e ∈ l := by
  intro fuel
  induction fuel with
  | zero =>
      intro l b hl _ hmem
      have he : l = [] := List.eq_nil_of_length_eq_zero (by omega)
      subst he
      simp [toBlocksGo] at hmem
  | succ fuel ih =>
      intro l b hl hb hmem
      cases l with
      | nil => simp [toBlocksGo] at hmem
      | cons a t =>
          have hmem' : b = (a :: t).take bsz ∨ b ∈ toBlocksGo bsz fuel ((a :: t).drop bsz) := by
            simpa [toBlocksGo] using hmem
          rcases hmem' with rfl | hmem'
          · refine ⟨by simp, fun e he => List.mem_of_mem_take he⟩
          · have hlen : ((a :: t).drop bsz).length ≤ fuel := by
              simp only [List.length_drop, List.length_cons] at hl ⊢
              omega
            obtain ⟨h1, h2⟩ := ih _ b hlen hb hmem'
            exact ⟨h1, fun e he => List.mem_of_mem_drop (h2 e he)⟩

theorem coerceSlot_timeFirst (e : stinger_edge) :
    (coerceSlot e).timeFirst = e.timeFirst := by
  simp only [coerceSlot]
  split_ifs <;> rfl

theorem coerceSlot_timeRecent (e : stinger_edge) :
    (coerceSlot e).timeRecent = e.timeRecent := by
  simp only [coerceSlot]
  split_ifs <;> rfl

theorem is_blank_coerceSlot (e : stinger_edge) :
    stinger_eb_is_blank (coerceSlot e) = !(liveSlot e) := by
  by_cases hb : stinger_eb_is_blank e = false
  · by_cases haz : (e.neighbor = 0 ∧ e.weight = 0 ∧ e.timeFirst = 0 ∧ e.timeRecent = 0)
    · simp [coerceSlot, liveSlot, hb, haz, stinger_eb_is_blank]
    · simp [coerceSlot, liveSlot, hb, haz]
  · have hb' : stinger_eb_is_blank e = true := by
      cases h : stinger_eb_is_blank e
      · exact absurd h hb
      · rfl
    have hn : ¬ (e.neighbor = 0) := by
      simp only [stinger_eb_is_blank, decide_eq_true_eq] at hb'
      omega
    simp [coerceSlot, liveSlot, hb', hn]

theorem coerceSlot_neighbor_zero (e : stinger_edge)
    (hz : e.neighbor = 0 → e.weight = 0 ∧ e.timeFirst = 0 ∧ e.timeRecent = 0) :
    (coerceSlot e).neighbor = if e.neighbor = 0 then -1 else e.neighbor := by
  by_cases hn : e.neighbor = 0
  · obtain ⟨h1, h2, h3⟩ := hz hn
    have hb : stinger_eb_is_blank e = false := by
      simp only [stinger_eb_is_blank, decide_eq_false_iff_not]
      omega
    simp [coerceSlot, hb, hn, h1, h2, h3]
  · have : ¬ (stinger_eb_is_blank e = false ∧ e.neighbor = 0 ∧ e.weight = 0 ∧
        e.timeFirst = 0 ∧ e.timeRecent = 0) := by
      intro hcon
      exact hn hcon.2.1
    simp [coerceSlot, this, hn]

/-- Everything the recompute scan guarantees: the rewritten slots are the
coercion map, `numEdges` adds the live-slot count, the `high` accumulator
only grows and ends at the last live index seen (or stays), the stamp
accumulators are the running extremes, and the live count is bounded by the
high-water mark. -/
theorem recomputeScan_spec : ∀ (b : List stinger_edge) (i : Nat) (m : blockMeta),
    (recomputeScan b i m).1 = b.map coerceSlot ∧
    (recomputeScan b i m).2.numEdges = m.numEdges + (b.countP liveSlot : Int) ∧
    m.high ≤ (recomputeScan b i m).2.high ∧
    ((recomputeScan b i m).2.high = m.high ∨
      ∃ j, j < b.length ∧ liveSlot (b.getD j default) = true ∧
        (recomputeScan b i m).2.high = (i : Int) + (j : Int)) ∧
    (∀ j, j < b.length → liveSlot (b.getD j default) = true →
      (i : Int) + (j : Int) ≤ (recomputeScan b i m).2.high) ∧
    (recomputeScan b i m).2.smallStamp ≤ m.smallStamp ∧
    ((recomputeScan b i m).2.smallStamp = m.smallStamp ∨
      ∃ e ∈ b, liveSlot e = true ∧ (recomputeScan b i m).2.smallStamp = e.timeFirst) ∧
    (∀ e ∈ b, liveSlot e = true → (recomputeScan b i m).2.smallStamp ≤ e.timeFirst) ∧
    m.largeStamp ≤ (recomputeScan b i m).2.largeStamp ∧
    ((recomputeScan b i m).2.largeStamp = m.largeStamp ∨
      ∃ e ∈ b, liveSlot e = true ∧ (recomputeScan b i m).2.largeStamp = e.timeRecent) ∧
    (∀ e ∈ b, liveSlot e = true → e.timeRecent ≤ (recomputeScan b i m).2.largeStamp) ∧
    ((b.countP liveSlot : Int) + (i : Int) ≤
      max ((recomputeScan b i m).2.high + 1) (i : Int)) := by
  intro b
  induction b with
  | nil =>
      intro i m
      refine ⟨rfl, by simp [recomputeScan], le_refl _, Or.inl rfl, ?_, le_refl _,
        Or.inl rfl, ?_, le_refl _, Or.inl rfl, ?_, ?_⟩
      · intro j hj
        simp at hj
      · intro x hx
        simp at hx
      · intro x hx
        simp at hx
      · simp only [recomputeScan, List.countP_nil]
        push_cast
        omega
  | cons e t ih =>
      intro i m
      by_cases hbl : stinger_eb_is_blank e = false
      · by_cases hz : (e.neighbor = 0 ∧ e.weight = 0 ∧ e.timeFirst = 0 ∧ e.timeRecent = 0)
        · -- coerced all-zero slot
          have hR : recomputeScan (e :: t) i m =
              ({ e with neighbor := -1 } :: (recomputeScan t (i+1) m).1,
                (recomputeScan t (i+1) m).2) := by
            simp [recomputeScan, hbl, hz]
          have hR1 : (recomputeScan (e :: t) i m).1 =
              { e with neighbor := -1 } :: (recomputeScan t (i+1) m).1 := by rw [hR]
          have hR2 : (recomputeScan (e :: t) i m).2 = (recomputeScan t (i+1) m).2 := by
            rw [hR]
          have hlive : liveSlot e = false := by simp [liveSlot, hz]
          have hco : coerceSlot e = { e with neighbor := -1 } := by
            simp [coerceSlot, hbl, hz]
          have hcnt : (e :: t).countP liveSlot = t.countP liveSlot := by
            rw [List.countP_cons, hlive]
            simp
          obtain ⟨ih1, ih2, ih3, ih4, ih5, ih6, ih7, ih8, ih9, ih10, ih11, ih12⟩ :=
            ih (i+1) m
          rw [hR1, hR2]
          refine ⟨?_, ?_, ih3, ?_, ?_, ih6, ?_, ?_, ih9, ?_, ?_, ?_⟩
          · rw [List.map_cons, hco, ih1]
          · rw [hcnt]
            exact ih2
          · rcases ih4 with h | ⟨j, hj, hl, hh⟩
            · exact Or.inl h
            · refine Or.inr ⟨j+1, ?_, ?_, ?_⟩
              · simp only [List.length_cons]
                omega
              · rw [List.getD_cons_succ]
                exact hl
              · push_cast at hh ⊢
                omega
          · intro j hj hl
            cases j with
            | zero =>
                rw [List.getD_cons_zero, hlive] at hl
                exact absurd hl (by simp)
            | succ j =>
                rw [List.getD_cons_succ] at hl
                have := ih5 j (by simp only [List.length_cons] at hj; omega) hl
                push_cast at this ⊢
                omega
          · rcases ih7 with h | ⟨x, hx, hlx, hhx⟩
            · exact Or.inl h
            · exact Or.inr ⟨x, List.mem_cons_of_mem e hx, hlx, hhx⟩
          · intro x hx hlx
            rcases List.mem_cons.mp hx with rfl | hx'
            · rw [hlive] at hlx
              exact absurd hlx (by simp)
            · exact ih8 x hx' hlx
          · rcases ih10 with h | ⟨x, hx, hlx, hhx⟩
            · exact Or.inl h
            · exact Or.inr ⟨x, List.mem_cons_of_mem e hx, hlx, hhx⟩
          · intro x hx hlx
            rcases List.mem_cons.mp hx with rfl | hx'
            · rw [hlive] at hlx
              exact absurd hlx (by simp)
            · exact ih11 x hx' hlx
          · rw [hcnt]
            push_cast at ih12 ⊢
            omega
        · -- live slot
          have hR : recomputeScan (e :: t) i m =
              (e :: (recomputeScan t (i+1) (stepMeta e i m)).1,
                (recomputeScan t (i+1) (stepMeta e i m)).2) := by
            simp [recomputeScan, hbl, hz]
          have hR1 : (recomputeScan (e :: t) i m).1 =
              e :: (recomputeScan t (i+1) (stepMeta e i m)).1 := by rw [hR]
          have hR2 : (recomputeScan (e :: t) i m).2 =
              (recomputeScan t (i+1) (stepMeta e i m)).2 := by rw [hR]
          have hlive : liveSlot e = true := by simp [liveSlot, hbl, hz]
          have hco : coerceSlot e = e := by simp [coerceSlot, hz]
          have hcnt : (e :: t).countP liveSlot = t.countP liveSlot + 1 := by
            rw [List.countP_cons, hlive]
            simp
          obtain ⟨ih1, ih2, ih3, ih4, ih5, ih6, ih7, ih8, ih9, ih10, ih11, ih12⟩ :=
            ih (i+1) (stepMeta e i m)
          have hsmH : (stepMeta e i m).high =
              if (i : Int) > m.high then (i : Int) else m.high := rfl
          have hsmN : (stepMeta e i m).numEdges = m.numEdges + 1 := rfl
          have hsmS : (stepMeta e i m).smallStamp =
              if e.timeFirst < m.smallStamp then e.timeFirst else m.smallStamp := rfl
          have hsmL : (stepMeta e i m).largeStamp =
              if e.timeRecent > m.largeStamp then e.timeRecent else m.largeStamp := rfl
          rw [hR1, hR2]
          have hhib : (i : Int) ≤ (recomputeScan t (i+1) (stepMeta e i m)).2.high := by
            have h3 := ih3
            rw [hsmH] at h3
            split_ifs at h3 with hif
            · omega
            · omega
          refine ⟨?_, ?_, ?_, ?_, ?_, ?_, ?_, ?_, ?_, ?_, ?_, ?_⟩
          · rw [List.map_cons, hco, ih1]
          · rw [hcnt]
            have h2 := ih2
            rw [hsmN] at h2
            push_cast at h2 ⊢
            omega
          · have h3 := ih3
            rw [hsmH] at h3
            split_ifs at h3 with hif
            · omega
            · omega
          · rcases ih4 with h | ⟨j, hj, hl, hh⟩
            · rw [hsmH] at h
              split_ifs at h with hif
              · refine Or.inr ⟨0, by simp, ?_, ?_⟩
                · rw [List.getD_cons_zero]
                  exact hlive
                · push_cast
                  omega
              · exact Or.inl h
            · refine Or.inr ⟨j+1, ?_, ?_, ?_⟩
              · simp only [List.length_cons]
                omega
              · rw [List.getD_cons_succ]
                exact hl
              · push_cast at hh ⊢
                omega
          · intro j hj hl
            cases j with
            | zero =>
                push_cast
                omega
            | succ j =>
                rw [List.getD_cons_succ] at hl
                have := ih5 j (by simp only [List.length_cons] at hj; omega) hl
                push_cast at this ⊢
                omega
          · have h6 := ih6
            rw [hsmS] at h6
            split_ifs at h6 with hif
            · omega
            · omega
          · rcases ih7 with h | ⟨x, hx, hlx, hhx⟩
            · rw [hsmS] at h
              split_ifs at h with hif
              · exact Or.inr ⟨e, List.mem_cons_self e t, hlive, h⟩
              · exact Or.inl h
            · exact Or.inr ⟨x, List.mem_cons_of_mem e hx, hlx, hhx⟩
          · intro x hx hlx
            rcases List.mem_cons.mp hx with rfl | hx'
            · have h6 := ih6
              rw [hsmS] at h6
              split_ifs at h6 with hif
              · omega
              · omega
            · exact ih8 x hx' hlx
          · have h9 := ih9
            rw [hsmL] at h9
            split_ifs at h9 with hif
            · omega
            · omega
          · rcases ih10 with h | ⟨x, hx, hlx, hhx⟩
            · rw [hsmL] at h
              split_ifs at h with hif
              · exact Or.inr ⟨e, List.mem_cons_self e t, hlive, h⟩
              · exact Or.inl h
            · exact Or.inr ⟨x, List.mem_cons_of_mem e hx, hlx, hhx⟩
          · intro x hx hlx
            rcases List.mem_cons.mp hx with rfl | hx'
            · have h9 := ih9
              rw [hsmL] at h9
              split_ifs at h9 with hif
              · omega
              · omega
            · exact ih11 x hx' hlx
          · rw [hcnt]
            push_cast at ih12 ⊢
            omega
      · -- blank slot
        have hbl' : stinger_eb_is_blank e = true := by
          cases h : stinger_eb_is_blank e
          · exact absurd h hbl
          · rfl
        have hR : recomputeScan (e :: t) i m =
            (e :: (recomputeScan t (i+1) m).1, (recomputeScan t (i+1) m).2) := by
          simp [recomputeScan, hbl']
        have hR1 : (recomputeScan (e :: t) i m).1 =
            e :: (recomputeScan t (i+1) m).1 := by rw [hR]
        have hR2 : (recomputeScan (e :: t) i m).2 = (recomputeScan t (i+1) m).2 := by
          rw [hR]
        have hlive : liveSlot e = false := by simp [liveSlot, hbl']
        have hco : coerceSlot e = e := by simp [coerceSlot, hbl']
        have hcnt : (e :: t).countP liveSlot = t.countP liveSlot := by
          rw [List.countP_cons, hlive]
          simp
        obtain ⟨ih1, ih2, ih3, ih4, ih5, ih6, ih7, ih8, ih9, ih10, ih11, ih12⟩ :=
          ih (i+1) m
        rw [hR1, hR2]
        refine ⟨?_, ?_, ih3, ?_, ?_, ih6, ?_, ?_, ih9, ?_, ?_, ?_⟩
        · rw [List.map_cons, hco, ih1]
        · rw [hcnt]
          exact ih2
        · rcases ih4 with h | ⟨j, hj, hl, hh⟩
          · exact Or.inl h
          · refine Or.inr ⟨j+1, ?_, ?_, ?_⟩
            · simp only [List.length_cons]
              omega
            · rw [List.getD_cons_succ]
              exact hl
            · push_cast at hh ⊢
              omega
        · intro j hj hl
          cases j with
          | zero =>
              rw [List.getD_cons_zero, hlive] at hl
              exact absurd hl (by simp)
          | succ j =>
              rw [List.getD_cons_succ] at hl
              have := ih5 j (by simp only [List.length_cons] at hj; omega) hl
              push_cast at this ⊢
              omega
        · rcases ih7 with h | ⟨x, hx, hlx, hhx⟩
          · exact Or.inl h
          · exact Or.inr ⟨x, List.mem_cons_of_mem e hx, hlx, hhx⟩
        · intro x hx hlx
          rcases List.mem_cons.mp hx with rfl | hx'
          · rw [hlive] at hlx
            exact absurd hlx (by simp)
          · exact ih8 x hx' hlx
        · rcases ih10 with h | ⟨x, hx, hlx, hhx⟩
          · exact Or.inl h
          · exact Or.inr ⟨x, List.mem_cons_of_mem e hx, hlx, hhx⟩
        · intro x hx hlx
          rcases List.mem_cons.mp hx with rfl | hx'
          · rw [hlive] at hlx
            exact absurd hlx (by simp)
          · exact ih11 x hx' hlx
        · rw [hcnt]
          push_cast at ih12 ⊢
          omega

theorem getD_map_coerce (b : List stinger_edge) (i : Nat) (h : i < b.length) :
    (b.map coerceSlot).getD i default = coerceSlot (b.getD i default) := by
  rw [List.getD_eq_getElem?_getD, List.getD_eq_getElem?_getD, List.getElem?_map,
    List.getElem?_eq_getElem h]
  rfl

/-- The per-block content of claim C8, derived from the scan invariants. -/
theorem recomputeBlock_spec (bsz : Nat) (b : List stinger_edge) (hb : 1 ≤ bsz)
    (hlen : b.length ≤ bsz)
    (hts : ∀ e ∈ b, INT64_MIN ≤ e.timeFirst ∧ e.timeFirst ≤ INT64_MAX ∧
      INT64_MIN ≤ e.timeRecent ∧ e.timeRecent ≤ INT64_MAX) :
    (recomputeBlock b).1.length ≤ bsz ∧
    (recomputeBlock b).2.numEdges =
      ((recomputeBlock b).1.countP (fun x => !(stinger_eb_is_blank x)) : Int) ∧
    0 ≤ (recomputeBlock b).2.numEdges ∧
    (recomputeBlock b).2.numEdges ≤ (recomputeBlock b).2.high ∧
    (recomputeBlock b).2.high ≤ (bsz : Int) ∧
    (∀ i : Nat, (recomputeBlock b).2.high ≤ (i : Int) → i < (recomputeBlock b).1.length →
      stinger_eb_is_blank ((recomputeBlock b).1.getD i default) = true) ∧
    ((∃ x ∈ (recomputeBlock b).1, stinger_eb_is_blank x = false) →
      1 ≤ (recomputeBlock b).2.high ∧
      stinger_eb_is_blank
        ((recomputeBlock b).1.getD ((recomputeBlock b).2.high - 1).toNat default) = false ∧
      (∀ x ∈ (recomputeBlock b).1, stinger_eb_is_blank x = false →
        (recomputeBlock b).2.smallStamp ≤ x.timeFirst ∧
        x.timeRecent ≤ (recomputeBlock b).2.largeStamp) ∧
      (∃ x ∈ (recomputeBlock b).1, stinger_eb_is_blank x = false ∧
        (recomputeBlock b).2.smallStamp = x.timeFirst) ∧
      (∃ x ∈ (recomputeBlock b).1, stinger_eb_is_blank x = false ∧
        (recomputeBlock b).2.largeStamp = x.timeRecent)) := by
  obtain ⟨s1, s2, s3, s4, s5, s6, s7, s8, s9, s10, s11, s12⟩ :=
    recomputeScan_spec b 0 ⟨0, 0, INT64_MAX, INT64_MIN⟩
  have hm1 : (⟨0, 0, INT64_MAX, INT64_MIN⟩ : blockMeta).high = 0 := rfl
  have hm2 : (⟨0, 0, INT64_MAX, INT64_MIN⟩ : blockMeta).numEdges = 0 := rfl
  have hm3 : (⟨0, 0, INT64_MAX, INT64_MIN⟩ : blockMeta).smallStamp = INT64_MAX := rfl
  have hm4 : (⟨0, 0, INT64_MAX, INT64_MIN⟩ : blockMeta).largeStamp = INT64_MIN := rfl
  rw [hm2] at s2
  rw [hm1] at s3 s4
  rw [hm3] at s7
  rw [hm4] at s10
  have hfst : (recomputeBlock b).1 = b.map coerceSlot := s1
  have hhigh : (recomputeBlock b).2.high =
      (recomputeScan b 0 ⟨0, 0, INT64_MAX, INT64_MIN⟩).2.high + 1 := rfl
  have hnum : (recomputeBlock b).2.numEdges =
      (recomputeScan b 0 ⟨0, 0, INT64_MAX, INT64_MIN⟩).2.numEdges := rfl
  have hsmall : (recomputeBlock b).2.smallStamp =
      (recomputeScan b 0 ⟨0, 0, INT64_MAX, INT64_MIN⟩).2.smallStamp := rfl
  have hlarge : (recomputeBlock b).2.largeStamp =
      (recomputeScan b 0 ⟨0, 0, INT64_MAX, INT64_MIN⟩).2.largeStamp := rfl
  have hcp : ((recomputeBlock b).1.countP (fun x => !(stinger_eb_is_blank x))) =
      b.countP liveSlot := by
    rw [hfst, List.countP_map]
    apply List.countP_congr
    intro x hx
    simp [Function.comp, is_blank_coerceSlot]
  refine ⟨?_, ?_, ?_, ?_, ?_, ?_, ?_⟩
  · rw [hfst, List.length_map]
    exact hlen
  · rw [hcp, hnum, s2]
    omega
  · rw [hnum, s2]
    positivity
  · rw [hnum, hhigh, s2]
    have h12 := s12
    push_cast at h12
    omega
  · rw [hhigh]
    rcases s4 with h | ⟨j, hj, _, hh⟩
    · rw [h]
      omega
    · push_cast at hh
      omega
  · intro i hhi hilen
    have hib : i < b.length := by
      rw [hfst, List.length_map] at hilen
      exact hilen
    rw [hfst, getD_map_coerce b i hib, is_blank_coerceSlot]
    cases hl : liveSlot (b.getD i default)
    · rfl
    · exfalso
      have h5 := s5 i hib hl
      rw [hhigh] at hhi
      push_cast at h5 hhi
      omega
  · intro hex
    obtain ⟨x, hx, hxb⟩ := hex
    rw [hfst] at hx
    obtain ⟨y, hy, rfl⟩ := List.mem_map.mp hx
    rw [is_blank_coerceSlot] at hxb
    have hly : liveSlot y = true := by
      cases hl : liveSlot y
      · rw [hl] at hxb
        exact absurd hxb (by simp)
      · rfl
    obtain ⟨n, hn, hbn⟩ := List.mem_iff_getElem.mp hy
    have hgd : b.getD n default = y := by
      rw [List.getD_eq_getElem?_getD, List.getElem?_eq_getElem hn, hbn]
      rfl
    have h5n := s5 n hn (by rw [hgd]; exact hly)
    refine ⟨?_, ?_, ?_, ?_, ?_⟩
    · rw [hhigh]
      omega
    · rcases s4 with h | ⟨j, hj, hlj, hh⟩
      · have hn0 : n = 0 := by
          rw [h] at h5n
          push_cast at h5n
          omega
        have hidx : ((recomputeBlock b).2.high - 1).toNat = 0 := by
          rw [hhigh, h]
          rfl
        rw [hidx, hfst, getD_map_coerce b 0 (by omega), is_blank_coerceSlot]
        rw [show b.getD 0 default = y from hn0 ▸ hgd, hly]
        rfl
      · have hidx : ((recomputeBlock b).2.high - 1).toNat = j := by
          rw [hhigh]
          push_cast at hh
          omega
        rw [hidx, hfst, getD_map_coerce b j hj, is_blank_coerceSlot, hlj]
        rfl
    · intro x hx2 hxb2
      rw [hfst] at hx2
      obtain ⟨z, hz', rfl⟩ := List.mem_map.mp hx2
      rw [is_blank_coerceSlot] at hxb2
      have hlz : liveSlot z = true := by
        cases hl : liveSlot z
        · rw [hl] at hxb2
          exact absurd hxb2 (by simp)
        · rfl
      rw [hsmall, hlarge, coerceSlot_timeFirst, coerceSlot_timeRecent]
      exact ⟨s8 z hz' hlz, s11 z hz' hlz⟩
    · rcases s7 with h | ⟨z, hz', hlz, hse⟩
      · refine ⟨coerceSlot y, by rw [hfst]; exact List.mem_map_of_mem _ hy, ?_, ?_⟩
        · rw [is_blank_coerceSlot, hly]
          rfl
        · have h8 := s8 y hy hly
          have hty := (hts y hy).2.1
          rw [hsmall, coerceSlot_timeFirst, h]
          omega
      · refine ⟨coerceSlot z, by rw [hfst]; exact List.mem_map_of_mem _ hz', ?_, ?_⟩
        · rw [is_blank_coerceSlot, hlz]
          rfl
        · rw [hsmall, coerceSlot_timeFirst]
          exact hse
    · rcases s10 with h | ⟨z, hz', hlz, hse⟩
      · refine ⟨coerceSlot y, by rw [hfst]; exact List.mem_map_of_mem _ hy, ?_, ?_⟩
        · rw [is_blank_coerceSlot, hly]
          rfl
        · have h11 := s11 y hy hly
          have hty := (hts y hy).2.2.1
          rw [hlarge, coerceSlot_timeRecent, h]
          omega
      · refine ⟨coerceSlot z, by rw [hfst]; exact List.mem_map_of_mem _ hz', ?_, ?_⟩
        · rw [is_blank_coerceSlot, hlz]
          rfl
        · rw [hlarge, coerceSlot_timeRecent]
          exact hse

theorem flatMap_recomputeBlock_fst (B : List (List stinger_edge)) :
    ((B.map recomputeBlock).flatMap Prod.fst) =
      (B.map (fun b => b.map coerceSlot)).flatten := by
  induction B with
  | nil => rfl
  | cons b B ih =>
      simp only [List.map_cons, List.flatMap_cons, List.flatten_cons, ih]
      congr 1
      exact (recomputeScan_spec b 0 ⟨0, 0, INT64_MAX, INT64_MIN⟩).1

theorem flatten_map_coerce (B : List (List stinger_edge)) :
    (B.map (fun b => b.map coerceSlot)).flatten = B.flatten.map coerceSlot := by
  induction B with
  | nil => rfl
  | cons b B ih => simp only [List.map_cons, List.flatten_cons, List.map_append, ih]

theorem stinger_sort_edge_list_flat (bsz : Nat) (chain : List stinger_edge) :
    (stinger_sort_edge_list bsz chain).flatMap Prod.fst =
      (sortLoop (invCount chain + 1) chain).map coerceSlot := by
  unfold stinger_sort_edge_list toBlocks
  rw [flatMap_recomputeBlock_fst, flatten_map_coerce, toBlocksGo_flatten]

/-- C5 (amended): after `stinger_sort_edge_list`, the chain read as one
logical slot array is a permutation of the input slots (through the all-zero
coercion) whose neighbor sequence is non-decreasing in the raw integer order
-- so `-1` tombstones are sorted to the FRONT, before the live neighbors, not
to the tail as the claim states (see the counterexample).  The hypothesis
excludes live edges with neighbor id `0`: the passes sort dead all-zero slots
by their raw neighbor `0` and only the final per-block walk coerces them to
`-1`, so a genuine neighbor-0 edge could end up between coerced tombstones. -/
theorem stinger_sort_edge_list_sorts (bsz : Nat) (chain : List stinger_edge)
    (hz : ∀ e ∈ chain, e.neighbor = 0 →
      e.weight = 0 ∧ e.timeFirst = 0 ∧ e.timeRecent = 0) :
    (∃ p : List stinger_edge, p.Perm chain ∧
      (stinger_sort_edge_list bsz chain).flatMap Prod.fst = p.map coerceSlot) ∧
    (((stinger_sort_edge_list bsz chain).flatMap Prod.fst).map
      stinger_edge.neighbor).Pairwise (· ≤ ·) := by
  obtain ⟨hperm, hchain⟩ := sortLoop_spec (invCount chain + 1) chain (by omega)
  have hflat := stinger_sort_edge_list_flat bsz chain
  constructor
  · exact ⟨_, hperm, hflat⟩
  · rw [hflat, List.map_map]
    haveI : IsTrans stinger_edge (fun a b => a.neighbor ≤ b.neighbor) :=
      ⟨fun a b c h1 h2 => le_trans h1 h2⟩
    have hpw : (sortLoop (invCount chain + 1) chain).Pairwise
        (fun a b => a.neighbor ≤ b.neighbor) := List.chain'_iff_pairwise.mp hchain
    refine List.pairwise_map.mpr ?_
    refine hpw.imp_of_mem (fun {a b} ha hb' hab => ?_)
    have hza := hz a (hperm.subset ha)
    have hzb := hz b (hperm.subset hb')
    simp only [Function.comp_apply]
    rw [coerceSlot_neighbor_zero a hza, coerceSlot_neighbor_zero b hzb]
    split_ifs <;> omega

def tombstone_last_le (a b : Int) : Prop := b = -1 ∨ (a ≠ -1 ∧ a ≤ b)

instance tombstone_last_le_dec : DecidableRel tombstone_last_le := fun a b =>
  decidable_of_iff (b = -1 ∨ (a ≠ -1 ∧ a ≤ b)) Iff.rfl

/-- C5 (counterexample): a single block holding the live edge `(5, 7, 2, 3)`
and the tombstone `(-1, 7, 2, 3)`.  The pass swaps them, so the chain ends as
`[-1, 5]`: the tombstone is at the head, which violates the claimed
"tombstones are maximal and sort to the tail" order. -/
theorem stinger_sort_edge_list_counterexample :
    ((stinger_sort_edge_list 2 [⟨5, 7, 2, 3⟩, ⟨-1, 7, 2, 3⟩]).flatMap Prod.fst).map
      stinger_edge.neighbor = [-1, 5] ∧
    ¬ (((stinger_sort_edge_list 2 [⟨5, 7, 2, 3⟩, ⟨-1, 7, 2, 3⟩]).flatMap Prod.fst).map
        stinger_edge.neighbor).Pairwise tombstone_last_le := by
  constructor
  · decide
  · decide

/-- Witness for `stinger_sort_edge_list_sorts`: a two-block chain with a live
edge, a dead all-zero slot, another live edge and a tombstone; the result
reads `[-1, -1, 1, 3]`. -/
theorem stinger_sort_edge_list_sorts_witness :
    (∀ e ∈ ([⟨3, 1, 10, 20⟩, ⟨0, 0, 0, 0⟩, ⟨1, 2, 5, 6⟩, ⟨-1, 4, 8, 9⟩] :
        List stinger_edge), e.neighbor = 0 →
      e.weight = 0 ∧ e.timeFirst = 0 ∧ e.timeRecent = 0) ∧
    ((∃ p : List stinger_edge,
        p.Perm [⟨3, 1, 10, 20⟩, ⟨0, 0, 0, 0⟩, ⟨1, 2, 5, 6⟩, ⟨-1, 4, 8, 9⟩] ∧
        (stinger_sort_edge_list 2
          [⟨3, 1, 10, 20⟩, ⟨0, 0, 0, 0⟩, ⟨1, 2, 5, 6⟩, ⟨-1, 4, 8, 9⟩]).flatMap Prod.fst =
          p.map coerceSlot) ∧
      (((stinger_sort_edge_list 2
          [⟨3, 1, 10, 20⟩, ⟨0, 0, 0, 0⟩, ⟨1, 2, 5, 6⟩, ⟨-1, 4, 8, 9⟩]).flatMap
            Prod.fst).map stinger_edge.neighbor).Pairwise (· ≤ ·)) ∧
    ((stinger_sort_edge_list 2
        [⟨3, 1, 10, 20⟩, ⟨0, 0, 0, 0⟩, ⟨1, 2, 5, 6⟩, ⟨-1, 4, 8, 9⟩]).flatMap
          Prod.fst).map stinger_edge.neighbor = [-1, -1, 1, 3] :=
  ⟨by decide,
    stinger_sort_edge_list_sorts 2 _ (by decide),
    by decide⟩

/-- C8: after `stinger_sort_edge_list`, every block of the processed chain
carries recomputed summaries: `numEdges` equals the number of live
(non-blank) slots of the block, `smallStamp` is the minimum `timeFirst` and
`largeStamp` the maximum `timeRecent` over the live slots (attained and
bounding, provided at least one slot is live -- with none they stay at the
`INT64_MAX` / `INT64_MIN` sentinels), `high` is one past the highest occupied
slot, and the invariant `0 ≤ numEdges ≤ high ≤ capacity` holds with every
slot at index `≥ high` blank.  Timestamps are assumed to lie in the int64
range, as they do in the C program. -/
theorem stinger_sort_edge_list_block_invariants (bsz : Nat) (chain : List stinger_edge)
    (hb : 1 ≤ bsz)
    (hts : ∀ e ∈ chain, INT64_MIN ≤ e.timeFirst ∧ e.timeFirst ≤ INT64_MAX ∧
      INT64_MIN ≤ e.timeRecent ∧ e.timeRecent ≤ INT64_MAX) :
    ∀ blk ∈ stinger_sort_edge_list bsz chain,
      blk.1.length ≤ bsz ∧
      blk.2.numEdges = (blk.1.countP (fun x => !(stinger_eb_is_blank x)) : Int) ∧
      0 ≤ blk.2.numEdges ∧
      blk.2.numEdges ≤ blk.2.high ∧
      blk.2.high ≤ (bsz : Int) ∧
      (∀ i : Nat, blk.2.high ≤ (i : Int) → i < blk.1.length →
        stinger_eb_is_blank (blk.1.getD i default) = true) ∧
      ((∃ x ∈ blk.1, stinger_eb_is_blank x = false) →
        1 ≤ blk.2.high ∧
        stinger_eb_is_blank (blk.1.getD (blk.2.high - 1).toNat default) = false ∧
        (∀ x ∈ blk.1, stinger_eb_is_blank x = false →
          blk.2.smallStamp ≤ x.timeFirst ∧ x.timeRecent ≤ blk.2.largeStamp) ∧
        (∃ x ∈ blk.1, stinger_eb_is_blank x = false ∧
          blk.2.smallStamp = x.timeFirst) ∧
        (∃ x ∈ blk.1, stinger_eb_is_blank x = false ∧
          blk.2.largeStamp = x.timeRecent)) := by
  intro blk hblk
  unfold stinger_sort_edge_list toBlocks at hblk
  obtain ⟨b, hbmem, rfl⟩ := List.mem_map.mp hblk
  have hsper : (sortLoop (invCount chain + 1) chain).Perm chain :=
    (sortLoop_spec (invCount chain + 1) chain (by omega)).1
  obtain ⟨hblen, hbsub⟩ := toBlocksGo_mem bsz _ _ b (le_refl _) hb hbmem
  exact recomputeBlock_spec bsz b hb hblen
    (fun e he => hts e (hsper.subset (hbsub e he)))

/-- Witness for `stinger_sort_edge_list_block_invariants` on a one-block
chain with one live edge and one tombstone. -/
theorem stinger_sort_edge_list_block_invariants_witness :
    ((1 : Nat) ≤ 2 ∧
      (∀ e ∈ ([⟨3, 1, 10, 20⟩, ⟨-1, 4, 8, 9⟩] : List stinger_edge),
        INT64_MIN ≤ e.timeFirst ∧ e.timeFirst ≤ INT64_MAX ∧
        INT64_MIN ≤ e.timeRecent ∧ e.timeRecent ≤ INT64_MAX)) ∧
    (∀ blk ∈ stinger_sort_edge_list 2 [⟨3, 1, 10, 20⟩, ⟨-1, 4, 8, 9⟩],
      blk.1.length ≤ 2 ∧
      blk.2.numEdges = (blk.1.countP (fun x => !(stinger_eb_is_blank x)) : Int) ∧
      0 ≤ blk.2.numEdges ∧
      blk.2.numEdges ≤ blk.2.high ∧
      blk.2.high ≤ ((2 : Nat) : Int) ∧
      (∀ i : Nat, blk.2.high ≤ (i : Int) → i < blk.1.length →
        stinger_eb_is_blank (blk.1.getD i default) = true) ∧
      ((∃ x ∈ blk.1, stinger_eb_is_blank x = false) →
        1 ≤ blk.2.high ∧
        stinger_eb_is_blank (blk.1.getD (blk.2.high - 1).toNat default) = false ∧
        (∀ x ∈ blk.1, stinger_eb_is_blank x = false →
          blk.2.smallStamp ≤ x.timeFirst ∧ x.timeRecent ≤ blk.2.largeStamp) ∧
        (∃ x ∈ blk.1, stinger_eb_is_blank x = false ∧
          blk.2.smallStamp = x.timeFirst) ∧
        (∃ x ∈ blk.1, stinger_eb_is_blank x = false ∧
          blk.2.largeStamp = x.timeRecent))) :=
  ⟨⟨by norm_num, by decide⟩,
    stinger_sort_edge_list_block_invariants 2 [⟨3, 1, 10, 20⟩, ⟨-1, 4, 8, 9⟩]
      (by norm_num) (by decide)⟩
